import Mathlib

/-!
Verification of the template-rendering and feature-composition core of the
`create-vue-vite-app` scaffolding CLI.

Strings are modelled as `List Char`.  The template renderer `copyTemplate`
(src/unnamed/part_006 lines 110-147, identically src/utils.js lines 190-227)
drives two JavaScript regexes with the `gm` flags over the template content:

  * per context key:   new RegExp("^\\s*\x7b\x7b " + escapedKey + " \x7d\x7d\\s*$\n?", "gm")
  * final cleanup:     /^\s*\x7b\x7b .* \x7d\x7d\s*$\n?/gm

Regex metacharacters in the key are escaped by the source before the regex is
built, so the key is matched as literal text; the embedding therefore treats
the key as a literal character list.  The anchored multiline scan (`^` with
the `m` flag, leftmost match, global replace restarting after each match) is
embedded by `goDel`/`anchoredTest`, and the regex body by a small matcher
`matchREs` over exactly the constructs appearing in the two patterns:
character-class stars (`\s*`, `.*`, greedy with backtracking), literals,
the multiline `$`, and `\n?`.  Both call sites replace matches with the
empty string, so the global replace is embedded as match deletion.

JavaScript `$`-escape processing inside replacement strings (`$&`, `$'`, ...)
is not modelled; no replacement string produced by the repository contains a
`$` sequence, and no claim exercises one.
-/

namespace CVVA

/-- JavaScript `\s` character class (the `\s*` parts of both template
regexes): ASCII whitespace, NBSP and the Unicode space separators. -/
def isWS (c : Char) : Bool :=
  c = ' ' || c = '\t' || c = '\n' || c.val = 11 || c.val = 12 || c = '\r' ||
  c.val = 0xa0 || c.val = 0x1680 || (0x2000 ≤ c.val && c.val ≤ 0x200a) ||
  c.val = 0x2028 || c.val = 0x2029 || c.val = 0x202f || c.val = 0x205f ||
  c.val = 0x3000 || c.val = 0xfeff

/-- JavaScript `LineTerminator`: LF, CR, LS and PS.  With the `m` flag,
`^` matches after any of these and `$` before any of these. -/
def isLineTerm (c : Char) : Bool :=
  c = '\n' || c = '\r' || c.val = 0x2028 || c.val = 0x2029

/-- JavaScript `.` without the `s` flag (the `.*` of the cleanup regex):
any character except the four line terminators. -/
def isDot (c : Char) : Bool :=
  !(isLineTerm c)

/-- A value of the `replacements` record passed to `copyTemplate`.  The
TypeScript signature says `Record<string, string>`, but the untyped
`src/utils.js` twin accepts any value: the source tests `value === ''`
and otherwise substitutes `String(value)`, so booleans are observable. -/
inductive Value where
  | str : List Char → Value
  | bool : Bool → Value
deriving DecidableEq

/-- JavaScript `String(value)` for the values that can reach the renderer. -/
def Value.toChars : Value → List Char
  | Value.str s => s
  | Value.bool true => "true".data
  | Value.bool false => "false".data

/-- The literal `\x7b\x7b ` opening a placeholder token. -/
def openTok : List Char := ['{', '{', ' ']

/-- The literal ` \x7d\x7d` closing a placeholder token. -/
def closeTok : List Char := [' ', '}', '}']

/-- The full literal placeholder token `\x7b\x7b name \x7d\x7d` for a key. -/
def tokOf (name : List Char) : List Char := openTok ++ name ++ closeTok

/-- The regex constructs appearing in the two template regexes (after the
leading `^`, which is baked into the anchored scan `goDel`). -/
inductive RE where
  | lit : List Char → RE
  | star : (Char → Bool) → RE
  | lineEnd : RE
  | optNL : RE

/-- Multiline `$`: satisfied at the end of the input or just before a
line terminator. -/
def atLineEnd (cs : List Char) : Bool :=
  match cs with
  | [] => true
  | c :: _ => isLineTerm c

/-- Greedy backtracking for a character-class star: try consuming `m`
characters first, then fewer (`m` starts at the maximal run length). -/
def tryFrom (k : List Char → Option Nat) (cs : List Char) : Nat → Option Nat
  | 0 =>
    match k cs with
    | some n => some n
    | none => none
  | m + 1 =>
    match k (cs.drop (m + 1)) with
    | some n => some (m + 1 + n)
    | none => tryFrom k cs m

/-- Match a regex-construct sequence at the head of `cs`, returning the
number of characters consumed (greedy, with backtracking, exactly as the
JavaScript engine resolves these patterns). -/
def matchREs : List RE → List Char → Option Nat
  | [], _ => some 0
  | RE.lit l :: rs, cs =>
    if l.isPrefixOf cs then (matchREs rs (cs.drop l.length)).map (l.length + ·) else none
  | RE.lineEnd :: rs, cs =>
    if atLineEnd cs = true then matchREs rs cs else none
  | RE.optNL :: rs, cs =>
    match cs with
    | '\n' :: cs' =>
      (match matchREs rs cs' with
       | some n => some (n + 1)
       | none => matchREs rs cs')
    | _ => matchREs rs cs
  | RE.star p :: rs, cs => tryFrom (matchREs rs) cs (cs.takeWhile p).length

/-- Body of `^\s*\x7b\x7b name \x7d\x7d\s*$\n?` (the per-key line regex built
at src/unnamed/part_006 line 133). -/
def lineREFor (name : List Char) : List RE :=
  [RE.star isWS, RE.lit (tokOf name), RE.star isWS, RE.lineEnd, RE.optNL]

/-- Body of `REMAINING_PLACEHOLDERS_REGEX = /^\s*\x7b\x7b .* \x7d\x7d\s*$\n?/gm`
(src/unnamed/part_006 line 101). -/
def cleanupRE : List RE :=
  [RE.star isWS, RE.lit openTok, RE.star isDot, RE.lit closeTok,
   RE.star isWS, RE.lineEnd, RE.optNL]

/-- Whether the scan position reached after consuming `l` is a line start:
the last consumed character is a line terminator. -/
def lastIsTerm (l : List Char) : Bool :=
  match l.getLast? with
  | some c => isLineTerm c
  | none => false

/-- Global multiline replace-with-empty: scan left to right, attempt the
(`^`-anchored) pattern at every line start, delete each match and resume
after it — `content.replace(regex, '')` for the two `gm` regexes above. -/
def goDel (res : List RE) (atStart : Bool) (cs : List Char) : List Char :=
  match cs with
  | [] => []
  | c :: rest =>
    if atStart then
      match matchREs res (c :: rest) with
      | some n =>
        if _h : n = 0 then c :: goDel res (isLineTerm c) rest
        else goDel res (lastIsTerm ((c :: rest).take n)) ((c :: rest).drop n)
      | none => c :: goDel res (isLineTerm c) rest
    else c :: goDel res (isLineTerm c) rest
termination_by cs.length
decreasing_by
  all_goals simp only [List.length_drop, List.length_cons]
  all_goals omega

/-- `regex.test(content)` for the same anchored multiline patterns. -/
def anchoredTest (res : List RE) (atStart : Bool) (cs : List Char) : Bool :=
  match cs with
  | [] => atStart && (matchREs res []).isSome
  | c :: rest =>
    if atStart && (matchREs res (c :: rest)).isSome then true
    else anchoredTest res (isLineTerm c) rest

/-- `content.replace(inlineRegex, rep)` with the global literal-token regex
(src/unnamed/part_006 lines 140-141): leftmost non-overlapping occurrences
of `pat` are each replaced by `rep`, scanning resumes after each match. -/
def replaceAll (pat rep : List Char) (cs : List Char) : List Char :=
  match cs with
  | [] => []
  | c :: rest =>
    if pat ≠ [] ∧ pat.isPrefixOf (c :: rest) then
      rep ++ replaceAll pat rep ((c :: rest).drop pat.length)
    else
      c :: replaceAll pat rep rest
termination_by cs.length
decreasing_by
  · simp only [List.length_drop, List.length_cons]
    rename_i h
    rcases h with ⟨hne, _⟩
    have : 0 < pat.length := List.length_pos.mpr hne
    omega
  · simp

/-- One iteration of the `for (const [placeholder, value] of
Object.entries(replacements))` loop (src/unnamed/part_006 lines 129-143):
if the value is the empty string and the line regex matches somewhere,
delete the matching lines; otherwise substitute `String(value)` for every
inline occurrence of the token. -/
def applyOne (content : List Char) (kv : List Char × Value) : List Char :=
  if kv.2 = Value.str [] ∧ anchoredTest (lineREFor kv.1) true content then
    goDel (lineREFor kv.1) true content
  else
    replaceAll (tokOf kv.1) kv.2.toChars content

/-- The pure content transformation of `copyTemplate` (src/unnamed/part_006
lines 129-146): the per-key substitution loop in `Object.entries` order,
followed by the cleanup pass deleting remaining line-level placeholders.
The file reading that precedes it in the source is elided. -/
def render (content : List Char) (replacements : List (List Char × Value)) : List Char :=
  goDel cleanupRE true (replacements.foldl applyOne content)

/-- Split on `'\n'` (never empty; a trailing newline yields a final `[]`). -/
def splitLines (cs : List Char) : List (List Char) :=
  match cs with
  | [] => [[]]
  | '\n' :: rest => [] :: splitLines rest
  | c :: rest =>
    match splitLines rest with
    | l :: ls => (c :: l) :: ls
    | [] => [[c]]

/-- Join newline-terminated lines: every element gets a trailing `'\n'`. -/
def unlines (ls : List (List Char)) : List Char :=
  (ls.map (fun l => l ++ ['\n'])).flatten

/-- Strip leading and trailing `\s` characters of a line. -/
def stripWSBoth (l : List Char) : List Char :=
  ((l.dropWhile isWS).reverse.dropWhile isWS).reverse

/-- Decides whether a (newline-free) line is deleted by the cleanup regex:
after stripping surrounding whitespace it reads `\x7b\x7b mid \x7d\x7d` with
`mid` free of line terminators.  Equivalently: the line is a line-level
placeholder token. -/
def isCleanupLine (l : List Char) : Bool :=
  let t := stripWSBoth l
  decide (t.take 3 = openTok) && decide (6 ≤ t.length) &&
  decide (t.drop (t.length - 3) = closeTok) &&
  ((t.drop 3).take (t.length - 6)).all isDot

/-- Decides whether a (newline-free) line consists of the token for `name`
surrounded only by whitespace — the shape the per-key line regex deletes. -/
def isPlacLine (name : List Char) (l : List Char) : Bool :=
  let t := l.dropWhile isWS
  (tokOf name).isPrefixOf t && (t.drop (tokOf name).length).all isWS

/-- Substring occurrence. -/
def containsSub (pat cs : List Char) : Bool :=
  cs.tails.any (fun t => pat.isPrefixOf t)

/-- The text contains placeholder syntax: an occurrence of `\x7b\x7b ` with an
occurrence of ` \x7d\x7d` starting at least three characters later.  Exactly
the texts in which some token `\x7b\x7b name \x7d\x7d` occurs. -/
def hasAnyToken (cs : List Char) : Bool :=
  cs.tails.any (fun t => openTok.isPrefixOf t && containsSub closeTok (t.drop 3))

/-!
Model of the composition orchestrator (`main`, src/src/index.ts lines
540-589), the manifest merge (`updatePackageJson`, lines 450-462;
`installDependencies`, lines 471-490; `sortObjectKeys`, src/unnamed/part_006
lines 90-97) and the bootstrap mutation (`updateMainFile`, lines 190-210).

JavaScript objects are modelled as association lists in insertion order,
which is the order `Object.entries` and `Object.keys` observe for
string-keyed records.
-/

/-- First-match lookup in an association list (JavaScript property read). -/
def lookupKey (k : List Char) : List (List Char × List Char) → Option (List Char)
  | [] => none
  | (k', v) :: rest => if k' = k then some v else lookupKey k rest

/-- JavaScript property write `obj[k] = v` (also what a spread
`\x7b ...obj, [k]: v \x7d` produces): an existing key keeps its insertion
position and gets the new value, a new key is appended. -/
def setKey (m : List (List Char × List Char)) (k v : List Char) : List (List Char × List Char) :=
  if m.any (fun p => p.1 = k) then
    m.map (fun p => if p.1 = k then (k, v) else p)
  else
    m ++ [(k, v)]

/-- `Object.assign(target, source)` / object-spread merge: the entries of
`updates` are written into `m` in their own insertion order. -/
def objectAssign (m updates : List (List Char × List Char)) : List (List Char × List Char) :=
  updates.foldl (fun acc kv => setKey acc kv.1 kv.2) m

/-- UTF-16 code-unit lexicographic order on names — the default
`Array.prototype.sort` comparator used by `Object.keys(obj).sort()`.
(Names of packages and scripts are BMP text, where code units and
code points coincide.) -/
def lexLe : List Char → List Char → Bool
  | [], _ => true
  | _ :: _, [] => false
  | a :: as, b :: bs => a < b || (a = b && lexLe as bs)

/-- Key order as a relation on entries. -/
def keyLe (p q : List Char × List Char) : Prop := lexLe p.1 q.1 = true

instance : DecidableRel keyLe :=
  fun p q => inferInstanceAs (Decidable (lexLe p.1 q.1 = true))

/-- `sortObjectKeys` (src/unnamed/part_006 lines 90-97): rebuild the object
with its keys in `Object.keys(obj).sort()` order, keeping each key's value
(entries sorted by key). -/
def sortObjectKeys (m : List (List Char × List Char)) : List (List Char × List Char) :=
  List.insertionSort keyLe m

/-- `FeatureResult` (src/src/index.ts lines 58-65): the declared effects of
one feature provider.  Optional fields are `Option` (`undefined` when
absent); the `if (result.scripts)`-style guards in `main` test presence. -/
structure FeatureResult where
  dependencies : List (List Char) := []
  devDependencies : List (List Char) := []
  scripts : Option (List (List Char × List Char)) := none
  importsToAdd : Option (List (List Char)) := none
  usesToAdd : Option (List (List Char)) := none
  lintStaged : Option (List (List Char × List Char)) := none

/-- The accumulator variables of `main` (src/src/index.ts lines 547-551):
`allDependencies`, `allDevDependencies`, `pkgUpdates = \x7b scripts: \x7b\x7d \x7d`,
`allImportsToAdd`, `allUsesToAdd`. -/
structure AccState where
  allDependencies : List (List Char) := []
  allDevDependencies : List (List Char) := []
  scripts : List (List Char × List Char) := []
  lintStaged : Option (List (List Char × List Char)) := none
  allImportsToAdd : List (List Char) := []
  allUsesToAdd : List (List Char) := []

/-- Merge one provider's `FeatureResult` into the accumulator — the body of
the `for (const [option, setupFn] of Object.entries(featureSetups))` loop
(src/src/index.ts lines 561-573). -/
def accumulateStep (st : AccState) (r : FeatureResult) : AccState :=
  { allDependencies := st.allDependencies ++ r.dependencies
    allDevDependencies := st.allDevDependencies ++ r.devDependencies
    scripts :=
      match r.scripts with
      | some s => objectAssign st.scripts s
      | none => st.scripts
    lintStaged :=
      match r.lintStaged with
      | some ls => some (objectAssign (st.lintStaged.getD []) ls)
      | none => st.lintStaged
    allImportsToAdd :=
      match r.importsToAdd with
      | some is => st.allImportsToAdd ++ is
      | none => st.allImportsToAdd
    allUsesToAdd :=
      match r.usesToAdd with
      | some us => st.allUsesToAdd ++ us
      | none => st.allUsesToAdd }

/-- The provider loop of `main`: iterate the declared provider order,
merging the results of the enabled ones (the `Bool` is the feature's
`options[option]` toggle). -/
def accumulate (results : List (Bool × FeatureResult)) : AccState :=
  results.foldl (fun st er => if er.1 then accumulateStep st er.2 else st) {}

/-- `package.json` as read by `readJsonFile<PackageJson>`: the four maps the
merge touches, plus all remaining fields, which the merge never looks at
(modelled as an opaque pass-through list). -/
structure PackageJson where
  scripts : List (List Char × List Char) := []
  lintStaged : List (List Char × List Char) := []
  dependencies : List (List Char × List Char) := []
  devDependencies : List (List Char × List Char) := []
  otherFields : List (List Char × List Char) := []

/-- The `updates` argument of `updatePackageJson` (`Partial<FeatureResult>`):
`main` passes `\x7b scripts := some acc.scripts, lintStaged := acc.lintStaged \x7d`. -/
structure PkgUpdates where
  scripts : Option (List (List Char × List Char)) := none
  lintStaged : Option (List (List Char × List Char)) := none

/-- The `pkgUpdates` object `main` hands to `updatePackageJson` (lines 549
and 577): the accumulated scripts map (always present) and the accumulated
lint-staged map (present only when some provider declared one). -/
def toPkgUpdates (st : AccState) : PkgUpdates :=
  { scripts := some st.scripts, lintStaged := st.lintStaged }

/-- `updatePackageJson` (src/src/index.ts lines 450-462), with the file
read/write elided: merge the update maps into the manifest by spread. -/
def updatePackageJson (pkg : PackageJson) (updates : PkgUpdates) : PackageJson :=
  let pkg1 :=
    match updates.scripts with
    | some s => { pkg with scripts := objectAssign pkg.scripts s }
    | none => pkg
  match updates.lintStaged with
  | some ls => { pkg1 with lintStaged := objectAssign pkg1.lintStaged ls }
  | none => pkg1

/-- Package-manager selector. -/
inductive PkgManager where
  | pnpm
  | npm
deriving DecidableEq

/-- The manifest transformation of `installDependencies` (src/src/index.ts
lines 471-488), with the file I/O and the `install` process elided:
`devDeps.push('pnpm')` under pnpm, every accumulated name written with the
`'latest'` placeholder version, then both maps key-sorted. -/
def installDependencies (pm : PkgManager) (pkg : PackageJson)
    (deps devDeps : List (List Char)) : PackageJson :=
  let devDeps' := if pm = PkgManager.pnpm then devDeps ++ ["pnpm".data] else devDeps
  let d := deps.foldl (fun acc dep => setKey acc dep "latest".data) pkg.dependencies
  let dd := devDeps'.foldl (fun acc dep => setKey acc dep "latest".data) pkg.devDependencies
  { pkg with dependencies := sortObjectKeys d, devDependencies := sortObjectKeys dd }

/-- The literal part `createApp(App).mount(` of the mount regex
`/createApp\(App\)\.mount\(['"]#app['"]\)/` (src/src/index.ts line 195). -/
def mountHead : List Char := "createApp(App).mount(".data

/-- The `['"]` character class of the mount regex. -/
def isQuote (c : Char) : Bool := c = '\'' || c = '"'

/-- Whether the mount regex matches at the head of `cs` (its match length is
always 28: the 21-character literal, a quote, `#app`, a quote, `)`). -/
def mountMatchAt (cs : List Char) : Bool :=
  mountHead.isPrefixOf cs &&
  (match cs.drop 21 with
   | q1 :: r1 =>
     isQuote q1 && "#app".data.isPrefixOf r1 &&
     (match r1.drop 4 with
      | q2 :: r2 => isQuote q2 && decide (r2.head? = some ')')
      | [] => false)
   | [] => false)

/-- A concrete string the mount regex matches, for given quote characters. -/
def mountExpr (q1 q2 : Char) : List Char :=
  mountHead ++ q1 :: "#app".data ++ [q2, ')']

/-- `content.replace(mountRegex, rep)` with a non-global regex: only the
leftmost match is replaced; no match leaves the content unchanged. -/
def replaceFirstMount (rep : List Char) (cs : List Char) : List Char :=
  match cs with
  | [] => []
  | c :: rest =>
    if mountMatchAt (c :: rest) then rep ++ (c :: rest).drop 28
    else c :: replaceFirstMount rep rest

/-- `importsToAdd.join('\n')`. -/
def joinNL : List (List Char) → List Char
  | [] => []
  | [l] => l
  | l :: ls => l ++ '\n' :: joinNL ls

/-- The `appInstanceCode` string built by `updateMainFile` (src/src/index.ts
lines 196-202): the app assignment, one `app<useCall>;` line per use call in
list order, then the mount call. -/
def appInstanceCodeOf (usesToAdd : List (List Char)) : List Char :=
  "const app = createApp(App);\n".data ++
  (usesToAdd.map (fun u => "app".data ++ u ++ [';', '\n'])).flatten ++
  "app.mount(".data ++ '\'' :: "#app".data ++ ['\'', ')', ';']

/-- The import block prepended by `updateMainFile` (lines 204-206): nothing
when there are no imports, otherwise the joined imports and a newline. -/
def importsBlock (importsToAdd : List (List Char)) : List Char :=
  if importsToAdd.isEmpty then [] else joinNL importsToAdd ++ ['\n']

/-- The content transformation of `updateMainFile` (src/src/index.ts lines
190-210), with the file read/write elided: prepend the import block, then
replace the first match of the mount regex by the expanded instance code. -/
def updateMainFile (content : List Char) (importsToAdd usesToAdd : List (List Char)) : List Char :=
  replaceFirstMount (appInstanceCodeOf usesToAdd) (importsBlock importsToAdd ++ content)

/-! ### Association-list and sorting lemmas -/

/-- The keys of an association list, in insertion order. -/
def keysOf (m : List (List Char × List Char)) : List (List Char) :=
  m.map Prod.fst

theorem lexLe_total (a b : List Char) : lexLe a b = true ∨ lexLe b a = true := by
  induction a generalizing b with
  | nil => left; simp [lexLe]
  | cons x as ih =>
    cases b with
    | nil => right; simp [lexLe]
    | cons y bs =>
      rcases lt_trichotomy x y with h | h | h
      · left; simp [lexLe, h]
      · subst h
        rcases ih bs with h' | h'
        · left; simp [lexLe, h']
        · right; simp [lexLe, h']
      · right; simp [lexLe, h]

theorem lexLe_trans {a b c : List Char} (h1 : lexLe a b = true) (h2 : lexLe b c = true) :
    lexLe a c = true := by
  induction a generalizing b c with
  | nil => simp [lexLe]
  | cons x as ih =>
    cases b with
    | nil => simp [lexLe] at h1
    | cons y bs =>
      cases c with
      | nil => simp [lexLe] at h2
      | cons z cs =>
        simp only [lexLe, Bool.or_eq_true, Bool.and_eq_true, decide_eq_true_eq] at h1 h2 ⊢
        rcases h1 with hxy | ⟨rfl, hab⟩
        · rcases h2 with hyz | ⟨rfl, hbc⟩
          · exact Or.inl (lt_trans hxy hyz)
          · exact Or.inl hxy
        · rcases h2 with hyz | ⟨rfl, hbc⟩
          · exact Or.inl hyz
          · exact Or.inr ⟨rfl, ih hab hbc⟩

instance : IsTotal (List Char × List Char) keyLe :=
  ⟨fun p q => lexLe_total p.1 q.1⟩

instance : IsTrans (List Char × List Char) keyLe :=
  ⟨fun _ _ _ h1 h2 => lexLe_trans h1 h2⟩

theorem sortObjectKeys_sorted (m : List (List Char × List Char)) :
    List.Pairwise keyLe (sortObjectKeys m) :=
  List.sorted_insertionSort keyLe m

theorem sortObjectKeys_perm (m : List (List Char × List Char)) :
    (sortObjectKeys m).Perm m :=
  List.perm_insertionSort keyLe m

theorem lookupKey_eq_some_iff {m : List (List Char × List Char)} {k v : List Char}
    (h : (keysOf m).Nodup) : lookupKey k m = some v ↔ (k, v) ∈ m := by
  induction m with
  | nil => simp [lookupKey]
  | cons p rest ih =>
    obtain ⟨k', v'⟩ := p
    simp only [keysOf, List.map_cons, List.nodup_cons] at h
    simp only [lookupKey, List.mem_cons, Prod.mk.injEq]
    by_cases hk : k' = k
    · subst hk
      rw [if_pos rfl]
      simp only [Option.some.injEq]
      constructor
      · intro hv; exact Or.inl ⟨by simp, hv.symm⟩
      · rintro (⟨-, rfl⟩ | hmem)
        · rfl
        · exact absurd (List.mem_map_of_mem Prod.fst hmem) h.1
    · rw [if_neg hk, ih h.2]
      constructor
      · exact Or.inr
      · rintro (⟨rfl, -⟩ | hmem)
        · exact absurd rfl hk
        · exact hmem

theorem lookupKey_eq_none_iff {m : List (List Char × List Char)} {k : List Char} :
    lookupKey k m = none ↔ k ∉ keysOf m := by
  induction m with
  | nil => simp [lookupKey, keysOf]
  | cons p rest ih =>
    obtain ⟨k', v'⟩ := p
    simp only [lookupKey, keysOf, List.map_cons, List.mem_cons]
    by_cases hk : k' = k
    · subst hk
      rw [if_pos rfl]
      simp
    · rw [if_neg hk, ih]
      simp only [keysOf]
      constructor
      · intro h1 h2
        rcases h2 with h2 | h2
        · exact hk h2.symm
        · exact h1 h2
      · intro h1 h2
        exact h1 (Or.inr h2)

theorem lookupKey_perm {m m' : List (List Char × List Char)} (hp : m.Perm m')
    (h : (keysOf m).Nodup) (k : List Char) : lookupKey k m = lookupKey k m' := by
  have hpk : (keysOf m).Perm (keysOf m') := hp.map Prod.fst
  have h' : (keysOf m').Nodup := hpk.nodup_iff.mp h
  cases hv : lookupKey k m with
  | some v =>
    exact ((lookupKey_eq_some_iff h').mpr (hp.mem_iff.mp ((lookupKey_eq_some_iff h).mp hv))).symm
  | none =>
    have := lookupKey_eq_none_iff.mp hv
    exact (lookupKey_eq_none_iff.mpr (fun hm => this (hpk.mem_iff.mpr hm))).symm

theorem keysOf_setKey_of_mem {m : List (List Char × List Char)} {k : List Char} (v : List Char)
    (h : m.any (fun p => p.1 = k) = true) : keysOf (setKey m k v) = keysOf m := by
  unfold setKey
  rw [if_pos h]
  simp only [keysOf, List.map_map]
  apply List.map_congr_left
  intro p _
  by_cases hp : p.1 = k
  · simp [hp]
  · simp [hp]

theorem keysOf_setKey_of_not_mem {m : List (List Char × List Char)} {k : List Char}
    (v : List Char) (h : ¬m.any (fun p => p.1 = k) = true) :
    keysOf (setKey m k v) = keysOf m ++ [k] := by
  unfold setKey
  rw [if_neg h]
  simp [keysOf]

theorem keysOf_setKey_nodup {m : List (List Char × List Char)} {k v : List Char}
    (h : (keysOf m).Nodup) : (keysOf (setKey m k v)).Nodup := by
  by_cases hmem : m.any (fun p => p.1 = k) = true
  · rw [keysOf_setKey_of_mem v hmem]; exact h
  · rw [keysOf_setKey_of_not_mem v hmem]
    have hk : k ∉ keysOf m := by
      intro hk
      apply hmem
      rw [List.any_eq_true]
      obtain ⟨p, hp, hfst⟩ := List.mem_map.mp hk
      exact ⟨p, hp, by simp [hfst]⟩
    simp only [List.nodup_append, List.nodup_cons, List.not_mem_nil, not_false_iff,
      List.nodup_nil, and_true, true_and]
    refine ⟨h, ?_⟩
    intro a ha hb
    simp only [List.mem_singleton] at hb
    subst hb
    exact hk ha

theorem setKeyEntry_eq_of_eq {k v : List Char} {p : List Char × List Char} (h : p.1 = k) :
    (if p.1 = k then (k, v) else p) = (k, v) := by rw [if_pos h]

theorem setKeyEntry_eq_of_ne {k v : List Char} {p : List Char × List Char} (h : ¬p.1 = k) :
    (if p.1 = k then (k, v) else p) = p := by rw [if_neg h]

theorem lookupKey_map_set_self {m : List (List Char × List Char)} {k v : List Char}
    (hmem : m.any (fun p => p.1 = k) = true) :
    lookupKey k (m.map (fun p => if p.1 = k then (k, v) else p)) = some v := by
  induction m with
  | nil => simp at hmem
  | cons p rest ih =>
    obtain ⟨k', v'⟩ := p
    rw [List.map_cons]
    by_cases hk : k' = k
    · rw [setKeyEntry_eq_of_eq hk]
      simp [lookupKey]
    · rw [setKeyEntry_eq_of_ne hk]
      simp only [lookupKey, if_neg hk]
      apply ih
      simp only [List.any_cons, Bool.or_eq_true, decide_eq_true_eq] at hmem
      rcases hmem with h | h
      · exact absurd h hk
      · exact h

theorem lookupKey_append_single_self {m : List (List Char × List Char)} {k v : List Char} :
    m.any (fun p => p.1 = k) = false → lookupKey k (m ++ [(k, v)]) = some v := by
  induction m with
  | nil => intro; simp [lookupKey]
  | cons p rest ih =>
    intro hmem
    obtain ⟨k', v'⟩ := p
    simp only [List.any_cons, Bool.or_eq_false_iff, decide_eq_false_iff_not] at hmem
    rw [List.cons_append]
    simp only [lookupKey, if_neg hmem.1]
    exact ih hmem.2

theorem lookupKey_setKey_self (m : List (List Char × List Char)) (k v : List Char) :
    lookupKey k (setKey m k v) = some v := by
  unfold setKey
  by_cases hmem : m.any (fun p => p.1 = k) = true
  · rw [if_pos hmem]
    exact lookupKey_map_set_self hmem
  · rw [if_neg hmem]
    exact lookupKey_append_single_self (Bool.not_eq_true _ ▸ hmem)

theorem lookupKey_map_set_ne {k' k v : List Char} (m : List (List Char × List Char))
    (hne : k' ≠ k) :
    lookupKey k' (m.map (fun p => if p.1 = k then (k, v) else p)) = lookupKey k' m := by
  induction m with
  | nil => simp
  | cons p rest ih =>
    obtain ⟨a, b⟩ := p
    rw [List.map_cons]
    by_cases ha : a = k
    · rw [setKeyEntry_eq_of_eq ha]
      simp only [lookupKey]
      rw [if_neg (fun h : k = k' => hne h.symm), if_neg (fun h : a = k' => hne (ha ▸ h).symm)]
      exact ih
    · rw [setKeyEntry_eq_of_ne ha]
      simp only [lookupKey]
      split
      · rfl
      · exact ih

theorem lookupKey_append_single_ne {k' k v : List Char} (m : List (List Char × List Char))
    (hne : k' ≠ k) : lookupKey k' (m ++ [(k, v)]) = lookupKey k' m := by
  induction m with
  | nil =>
    simp only [List.nil_append, lookupKey]
    rw [if_neg (fun h : k = k' => hne h.symm)]
  | cons p rest ih =>
    rw [List.cons_append]
    simp only [lookupKey]
    split
    · rfl
    · exact ih

theorem lookupKey_setKey_ne {k' k : List Char} (m : List (List Char × List Char))
    (v : List Char) (hne : k' ≠ k) : lookupKey k' (setKey m k v) = lookupKey k' m := by
  unfold setKey
  split
  · exact lookupKey_map_set_ne m hne
  · exact lookupKey_append_single_ne m hne

theorem lookupKey_objectAssign_of_not_mem {u : List (List Char × List Char)} {k : List Char}
    (m : List (List Char × List Char)) (h : k ∉ keysOf u) :
    lookupKey k (objectAssign m u) = lookupKey k m := by
  induction u generalizing m with
  | nil => rfl
  | cons p u' ih =>
    simp only [keysOf, List.map_cons, List.mem_cons, not_or] at h
    show lookupKey k (objectAssign (setKey m p.1 p.2) u') = lookupKey k m
    rw [ih (setKey m p.1 p.2) (by simpa [keysOf] using h.2),
        lookupKey_setKey_ne _ _ h.1]

theorem lookupKey_foldl_setKey_preserve {v : List Char} {acc : List (List Char × List Char)}
    {n : List Char} (ds : List (List Char)) (hacc : lookupKey n acc = some v) :
    lookupKey n (ds.foldl (fun a d => setKey a d v) acc) = some v := by
  induction ds generalizing acc with
  | nil => exact hacc
  | cons d ds' ih =>
    apply ih
    by_cases hd : n = d
    · subst hd; exact lookupKey_setKey_self acc n v
    · rw [lookupKey_setKey_ne _ _ hd]; exact hacc

theorem lookupKey_foldl_setKey_mem {v : List Char} {n : List Char} {ds : List (List Char)}
    (acc : List (List Char × List Char)) (hn : n ∈ ds) :
    lookupKey n (ds.foldl (fun a d => setKey a d v) acc) = some v := by
  induction ds generalizing acc with
  | nil => cases hn
  | cons d ds' ih =>
    rcases List.mem_cons.mp hn with rfl | hmem
    · exact lookupKey_foldl_setKey_preserve ds' (lookupKey_setKey_self acc n v)
    · exact ih (setKey acc d v) hmem

theorem keysOf_foldl_setKey_nodup {v : List Char} {acc : List (List Char × List Char)}
    (ds : List (List Char)) (h : (keysOf acc).Nodup) :
    (keysOf (ds.foldl (fun a d => setKey a d v) acc)).Nodup := by
  induction ds generalizing acc with
  | nil => exact h
  | cons d ds' ih => exact ih (keysOf_setKey_nodup h)

theorem lookupKey_sortObjectKeys {m : List (List Char × List Char)}
    (h : (keysOf m).Nodup) (k : List Char) :
    lookupKey k (sortObjectKeys m) = lookupKey k m := by
  have hperm := sortObjectKeys_perm m
  have h' : (keysOf (sortObjectKeys m)).Nodup :=
    ((hperm.map Prod.fst).nodup_iff).mpr h
  exact lookupKey_perm hperm h' k

/-! ### Bootstrap-mutation lemmas -/

theorem mountMatchAt_mountExpr (q1 q2 : Char) (rest : List Char)
    (hq1 : isQuote q1 = true) (hq2 : isQuote q2 = true) :
    mountMatchAt (mountExpr q1 q2 ++ rest) = true := by
  have hred : mountMatchAt (mountExpr q1 q2 ++ rest)
      = ((isQuote q1 && true) && (isQuote q2 && true)) := rfl
  rw [hred, hq1, hq2]
  rfl

theorem mountExpr_length (q1 q2 : Char) : (mountExpr q1 q2).length = 28 := by
  have h21 : mountHead.length = 21 := by decide
  have h4 : ("#app".data).length = 4 := by decide
  simp [mountExpr, List.length_append, h21, h4]

theorem mountExpr_ne_nil (q1 q2 : Char) : mountExpr q1 q2 ≠ [] := by
  intro h
  have := mountExpr_length q1 q2
  rw [h] at this
  simp at this

theorem noMount_all {cs : List Char}
    (h : ∀ n < cs.length, mountMatchAt (cs.drop n) = false) :
    ∀ n, mountMatchAt (cs.drop n) = false := by
  intro n
  by_cases hn : n < cs.length
  · exact h n hn
  · rw [List.drop_eq_nil_of_le (le_of_not_lt hn)]
    rfl

theorem replaceFirstMount_no_match (rep : List Char) {cs : List Char}
    (h : ∀ n, mountMatchAt (cs.drop n) = false) :
    replaceFirstMount rep cs = cs := by
  induction cs with
  | nil => rfl
  | cons c rest ih =>
    have h0 : mountMatchAt (c :: rest) = false := h 0
    simp only [replaceFirstMount]
    rw [if_neg (by rw [h0]; exact Bool.false_ne_true)]
    exact congrArg (c :: ·) (ih fun n => h (n + 1))

theorem replaceFirstMount_append (rep : List Char) {P rest : List Char}
    (h : ∀ n < P.length, mountMatchAt ((P ++ rest).drop n) = false) :
    replaceFirstMount rep (P ++ rest) = P ++ replaceFirstMount rep rest := by
  induction P with
  | nil => rfl
  | cons c P' ih =>
    have h0 : mountMatchAt (c :: (P' ++ rest)) = false := by simpa using h 0 (by simp)
    simp only [List.cons_append, replaceFirstMount, List.append_eq]
    rw [if_neg (by rw [h0]; exact Bool.false_ne_true)]
    exact congrArg (c :: ·) (ih fun n hn => h (n + 1) (by simpa using Nat.succ_lt_succ hn))

theorem replaceFirstMount_at (rep post : List Char) (q1 q2 : Char)
    (hq1 : isQuote q1 = true) (hq2 : isQuote q2 = true) :
    replaceFirstMount rep (mountExpr q1 q2 ++ post) = rep ++ post := by
  have hm : mountMatchAt (mountExpr q1 q2 ++ post) = true :=
    mountMatchAt_mountExpr q1 q2 post hq1 hq2
  cases hc : mountExpr q1 q2 ++ post with
  | nil => exact absurd hc (by simp [mountExpr_ne_nil q1 q2])
  | cons c rest =>
    simp only [replaceFirstMount]
    rw [if_pos (hc ▸ hm)]
    congr 1
    rw [← hc, show (28 : Nat) = (mountExpr q1 q2).length from (mountExpr_length q1 q2).symm,
        List.drop_left]

/-- The entry-file transformation on content split around a mount
expression: imports go on top, the first mount expression becomes the
expanded instance code, everything after it is untouched. -/
theorem updateMainFile_split (imps uses : List (List Char)) {P post : List Char}
    (q1 q2 : Char) (hq1 : isQuote q1 = true) (hq2 : isQuote q2 = true)
    (hnm : ∀ n < (importsBlock imps ++ P).length,
      mountMatchAt (((importsBlock imps ++ P) ++ (mountExpr q1 q2 ++ post)).drop n) = false) :
    updateMainFile (P ++ (mountExpr q1 q2 ++ post)) imps uses
      = (importsBlock imps ++ P) ++ (appInstanceCodeOf uses ++ post) := by
  unfold updateMainFile
  rw [show importsBlock imps ++ (P ++ (mountExpr q1 q2 ++ post))
      = (importsBlock imps ++ P) ++ (mountExpr q1 q2 ++ post) from by
    rw [List.append_assoc]]
  rw [replaceFirstMount_append _ hnm, replaceFirstMount_at _ _ _ _ hq1 hq2]

/-! ### Accumulator lemmas -/

theorem accumulateStep_imports (st : AccState) (r : FeatureResult) :
    (accumulateStep st r).allImportsToAdd = st.allImportsToAdd ++ r.importsToAdd.getD [] := by
  cases h : r.importsToAdd <;> simp [accumulateStep, h]

theorem accumulateStep_uses (st : AccState) (r : FeatureResult) :
    (accumulateStep st r).allUsesToAdd = st.allUsesToAdd ++ r.usesToAdd.getD [] := by
  cases h : r.usesToAdd <;> simp [accumulateStep, h]

theorem accumulate_two (A B : FeatureResult) :
    accumulate [(true, A), (true, B)] = accumulateStep (accumulateStep {} A) B := rfl

theorem accumulateStep_scripts (st : AccState) (r : FeatureResult)
    {s : List (List Char × List Char)} (h : r.scripts = some s) :
    (accumulateStep st r).scripts = objectAssign st.scripts s := by
  simp [accumulateStep, h]

theorem accumulateStep_lintStaged (st : AccState) (r : FeatureResult)
    {ls : List (List Char × List Char)} (h : r.lintStaged = some ls) :
    (accumulateStep st r).lintStaged = some (objectAssign (st.lintStaged.getD []) ls) := by
  simp [accumulateStep, h]

theorem updatePackageJson_scripts (pkg : PackageJson) (u : PkgUpdates) :
    (updatePackageJson pkg u).scripts
      = match u.scripts with
        | some s => objectAssign pkg.scripts s
        | none => pkg.scripts := by
  obtain ⟨us, ul⟩ := u
  cases us <;> cases ul <;> rfl

theorem updatePackageJson_dependencies (pkg : PackageJson) (u : PkgUpdates) :
    (updatePackageJson pkg u).dependencies = pkg.dependencies := by
  obtain ⟨us, ul⟩ := u
  cases us <;> cases ul <;> rfl

theorem updatePackageJson_devDependencies (pkg : PackageJson) (u : PkgUpdates) :
    (updatePackageJson pkg u).devDependencies = pkg.devDependencies := by
  obtain ⟨us, ul⟩ := u
  cases us <;> cases ul <;> rfl

theorem updatePackageJson_otherFields (pkg : PackageJson) (u : PkgUpdates) :
    (updatePackageJson pkg u).otherFields = pkg.otherFields := by
  obtain ⟨us, ul⟩ := u
  cases us <;> cases ul <;> rfl

theorem setKey_nil (k v : List Char) : setKey [] k v = [(k, v)] := rfl

theorem setKey_single_self (k v1 v2 : List Char) :
    setKey [(k, v1)] k v2 = [(k, v2)] := by
  unfold setKey
  rw [if_pos (by simp), List.map_cons, setKeyEntry_eq_of_eq rfl]
  rfl

theorem setKey_single_ne {k1 k2 : List Char} (v1 v2 : List Char) (hne : k1 ≠ k2) :
    setKey [(k1, v1)] k2 v2 = [(k1, v1), (k2, v2)] := by
  unfold setKey
  rw [if_neg (by simp [hne])]
  rfl

/-! ### Claims C2-C6 -/

/-- C2, as stated, is false: `updateMainFile` raises no error at all.  On an
entry file with no `createApp(App).mount('#app')` expression it silently
writes back the unreplaced content (imports still prepended), and on an
entry file with two occurrences it silently replaces only the first — the
second survives verbatim in the output. -/
theorem claim_C2_counterexample :
    updateMainFile "const x = 1;\n".data ["import r".data] [".use(r)".data]
      = "import r\nconst x = 1;\n".data ∧
    updateMainFile (mountExpr '"' '"' ++ ('\n' :: (mountExpr '"' '"' ++ ['\n']))) [] []
      = appInstanceCodeOf [] ++ ('\n' :: (mountExpr '"' '"' ++ ['\n'])) := by
  exact ⟨rfl, rfl⟩

/-- C2 (amended): the bootstrap mutation never fails.  If the canonical
construct-and-mount expression does not occur, the replacement is silently
skipped and the content is returned with only the import block prepended;
if it occurs more than once, only the leftmost occurrence is replaced and
everything after it (including further occurrences) is left unchanged. -/
theorem claim_C2_amended :
    (∀ (content : List Char) (imps uses : List (List Char)),
      (∀ n < (importsBlock imps ++ content).length,
        mountMatchAt ((importsBlock imps ++ content).drop n) = false) →
      updateMainFile content imps uses = importsBlock imps ++ content) ∧
    (∀ (imps uses : List (List Char)) (P post : List Char) (q1 q2 : Char),
      isQuote q1 = true → isQuote q2 = true →
      (∀ n < (importsBlock imps ++ P).length,
        mountMatchAt (((importsBlock imps ++ P) ++ (mountExpr q1 q2 ++ post)).drop n) = false) →
      updateMainFile (P ++ (mountExpr q1 q2 ++ post)) imps uses
        = (importsBlock imps ++ P) ++ (appInstanceCodeOf uses ++ post)) := by
  constructor
  · intro content imps uses h
    unfold updateMainFile
    exact replaceFirstMount_no_match _ (noMount_all h)
  · intro imps uses P post q1 q2 hq1 hq2 h
    exact updateMainFile_split imps uses q1 q2 hq1 hq2 h

/-- C2 (amended) at a concrete mount-free entry file and at a concrete
entry file with two mount expressions. -/
theorem claim_C2_amended_witness :
    updateMainFile "const x = 2;\n".data [] []
      = importsBlock [] ++ "const x = 2;\n".data ∧
    updateMainFile ([] ++ (mountExpr '"' '"' ++ ('\n' :: mountExpr '"' '"'))) [] []
      = (importsBlock [] ++ []) ++ (appInstanceCodeOf [] ++ ('\n' :: mountExpr '"' '"')) := by
  constructor
  · exact claim_C2_amended.1 "const x = 2;\n".data [] [] (by decide)
  · exact claim_C2_amended.2 [] [] [] ('\n' :: mountExpr '"' '"') '"' '"'
      (by decide) (by decide) (by decide)

/-- C3, as stated, is false: when two enabled providers declare the same
script key with different values, `main`'s `Object.assign` merge silently
keeps the later provider's value, no error is raised, and
`updatePackageJson` writes the manifest with that later value. -/
theorem claim_C3_counterexample :
    (accumulate
        [(true, { scripts := some [("lint".data, "cmdA".data)] }),
         (true, { scripts := some [("lint".data, "cmdB".data)] })]).scripts
      = [("lint".data, "cmdB".data)] ∧
    lookupKey "lint".data
      (updatePackageJson { scripts := [("test".data, "vitest".data)] }
        (toPkgUpdates (accumulate
          [(true, { scripts := some [("lint".data, "cmdA".data)] }),
           (true, { scripts := some [("lint".data, "cmdB".data)] })]))).scripts
      = some "cmdB".data ∧
    "cmdB".data ≠ "cmdA".data := by
  refine ⟨by decide, by decide, by decide⟩

/-- C3 (amended): when two enabled providers declare the same script key
(or the same lint-staged key) with different values, composition raises no
error: the later provider's value silently overwrites the earlier one's in
the accumulated map, and the manifest write proceeds with the later value. -/
theorem claim_C3_amended (A B : FeatureResult) (k v1 v2 : List Char) (pkg : PackageJson)
    (hA : A.scripts = some [(k, v1)]) (hB : B.scripts = some [(k, v2)]) :
    lookupKey k (accumulate [(true, A), (true, B)]).scripts = some v2 ∧
    lookupKey k (updatePackageJson pkg
        (toPkgUpdates (accumulate [(true, A), (true, B)]))).scripts = some v2 ∧
    (∀ (k' w1 w2 : List Char), A.lintStaged = some [(k', w1)] → B.lintStaged = some [(k', w2)] →
      (accumulate [(true, A), (true, B)]).lintStaged = some [(k', w2)]) := by
  have hacc : (accumulate [(true, A), (true, B)]).scripts = [(k, v2)] := by
    rw [accumulate_two, accumulateStep_scripts _ _ hB, accumulateStep_scripts _ _ hA]
    show setKey (setKey [] k v1) k v2 = [(k, v2)]
    rw [setKey_nil, setKey_single_self]
  refine ⟨?_, ?_, ?_⟩
  · rw [hacc]
    have := lookupKey_setKey_self [] k v2
    rwa [setKey_nil] at this
  · rw [updatePackageJson_scripts]
    show lookupKey k (objectAssign pkg.scripts ((accumulate [(true, A), (true, B)]).scripts))
        = some v2
    rw [hacc]
    show lookupKey k (setKey pkg.scripts k v2) = some v2
    exact lookupKey_setKey_self pkg.scripts k v2
  · intro k' w1 w2 hA' hB'
    rw [accumulate_two, accumulateStep_lintStaged _ _ hB']
    have h1 : (accumulateStep {} A).lintStaged = some [(k', w1)] := by
      rw [accumulateStep_lintStaged _ _ hA']
      rfl
    rw [h1]
    show some (setKey [(k', w1)] k' w2) = some [(k', w2)]
    rw [setKey_single_self]

/-- C3 (amended) at the concrete colliding providers of the counterexample. -/
theorem claim_C3_amended_witness :
    lookupKey "lint".data
      (accumulate
        [(true, { scripts := some [("lint".data, "cmdA".data)] }),
         (true, { scripts := some [("lint".data, "cmdB".data)] })]).scripts
      = some "cmdB".data := by
  exact (claim_C3_amended _ _ "lint".data "cmdA".data "cmdB".data {} rfl rfl).1

/-- C4 (confirmed): providers are composed strictly in declared order —
for the same two enabled providers in either order, the accumulated import
and use-call lists are the concatenations in that declared order, and the
mutated entry file consists of the import block (in list order) above the
original content with the first mount expression replaced by the app
assignment, the `app.use` calls in list order, and the mount call. -/
theorem claim_C4 (A B : FeatureResult) (P post : List Char) (q1 q2 : Char)
    (hq1 : isQuote q1 = true) (hq2 : isQuote q2 = true)
    (hnm : ∀ n < (importsBlock ((accumulate [(true, A), (true, B)]).allImportsToAdd) ++ P).length,
      mountMatchAt (((importsBlock ((accumulate [(true, A), (true, B)]).allImportsToAdd) ++ P)
        ++ (mountExpr q1 q2 ++ post)).drop n) = false) :
    (accumulate [(true, A), (true, B)]).allImportsToAdd
      = A.importsToAdd.getD [] ++ B.importsToAdd.getD [] ∧
    (accumulate [(true, B), (true, A)]).allImportsToAdd
      = B.importsToAdd.getD [] ++ A.importsToAdd.getD [] ∧
    (accumulate [(true, A), (true, B)]).allUsesToAdd
      = A.usesToAdd.getD [] ++ B.usesToAdd.getD [] ∧
    (accumulate [(true, B), (true, A)]).allUsesToAdd
      = B.usesToAdd.getD [] ++ A.usesToAdd.getD [] ∧
    updateMainFile (P ++ (mountExpr q1 q2 ++ post))
        ((accumulate [(true, A), (true, B)]).allImportsToAdd)
        ((accumulate [(true, A), (true, B)]).allUsesToAdd)
      = (importsBlock ((accumulate [(true, A), (true, B)]).allImportsToAdd) ++ P)
        ++ (appInstanceCodeOf ((accumulate [(true, A), (true, B)]).allUsesToAdd) ++ post) := by
  refine ⟨?_, ?_, ?_, ?_, ?_⟩
  · rw [accumulate_two, accumulateStep_imports, accumulateStep_imports]
    rfl
  · rw [accumulate_two, accumulateStep_imports, accumulateStep_imports]
    rfl
  · rw [accumulate_two, accumulateStep_uses, accumulateStep_uses]
    rfl
  · rw [accumulate_two, accumulateStep_uses, accumulateStep_uses]
    rfl
  · exact updateMainFile_split _ _ q1 q2 hq1 hq2 hnm

/-- C4 at the concrete router and pinia providers. -/
theorem claim_C4_witness :
    (accumulate
        [(true, { dependencies := ["vue-router".data],
                  importsToAdd := some ["import router from ...".data],
                  usesToAdd := some [".use(router)".data] }),
         (true, { dependencies := ["pinia".data],
                  importsToAdd := some ["import pinia from ...".data],
                  usesToAdd := some [".use(pinia)".data] })]).allImportsToAdd
      = (some ["import router from ...".data] : Option (List (List Char))).getD []
        ++ (some ["import pinia from ...".data] : Option (List (List Char))).getD [] := by
  exact (claim_C4
    { dependencies := ["vue-router".data],
      importsToAdd := some ["import router from ...".data],
      usesToAdd := some [".use(router)".data] }
    { dependencies := ["pinia".data],
      importsToAdd := some ["import pinia from ...".data],
      usesToAdd := some [".use(pinia)".data] }
    "x = 1;\n".data [] '"' '"' (by decide) (by decide) (by decide)).1

/-- C5 (confirmed): `installDependencies` writes every accumulated
dependency and dev-dependency name into the corresponding manifest map with
the placeholder version `"latest"`, re-sorts both maps by key, and on the
spec's example scenario merging `a-lib` into `{"z-lib": "1.0"}` yields
`{"a-lib": "latest", "z-lib": "1.0"}` in that key order. -/
theorem claim_C5 (pm : PkgManager) (pkg : PackageJson) (deps devDeps : List (List Char))
    (hd : (keysOf pkg.dependencies).Nodup) (hdd : (keysOf pkg.devDependencies).Nodup) :
    (∀ n ∈ deps,
      lookupKey n (installDependencies pm pkg deps devDeps).dependencies = some "latest".data) ∧
    (∀ n ∈ devDeps,
      lookupKey n (installDependencies pm pkg deps devDeps).devDependencies = some "latest".data) ∧
    List.Pairwise keyLe (installDependencies pm pkg deps devDeps).dependencies ∧
    List.Pairwise keyLe (installDependencies pm pkg deps devDeps).devDependencies ∧
    (installDependencies PkgManager.npm { dependencies := [("z-lib".data, "1.0".data)] }
        ["a-lib".data] []).dependencies
      = [("a-lib".data, "latest".data), ("z-lib".data, "1.0".data)] := by
  refine ⟨?_, ?_, ?_, ?_, by decide⟩
  · intro n hn
    show lookupKey n (sortObjectKeys
      (deps.foldl (fun acc dep => setKey acc dep "latest".data) pkg.dependencies)) = _
    rw [lookupKey_sortObjectKeys (keysOf_foldl_setKey_nodup deps hd)]
    exact lookupKey_foldl_setKey_mem _ hn
  · intro n hn
    show lookupKey n (sortObjectKeys
      ((if pm = PkgManager.pnpm then devDeps ++ ["pnpm".data] else devDeps).foldl
        (fun acc dep => setKey acc dep "latest".data) pkg.devDependencies)) = _
    rw [lookupKey_sortObjectKeys (keysOf_foldl_setKey_nodup _ hdd)]
    apply lookupKey_foldl_setKey_mem
    by_cases hpm : pm = PkgManager.pnpm
    · rw [if_pos hpm]
      exact List.mem_append_left _ hn
    · rw [if_neg hpm]
      exact hn
  · exact sortObjectKeys_sorted _
  · exact sortObjectKeys_sorted _

/-- C5 at a concrete manifest and dependency set. -/
theorem claim_C5_witness :
    (∀ n ∈ ["e-lib".data],
      lookupKey n (installDependencies PkgManager.npm
        { dependencies := [("z".data, "1".data)] } ["e-lib".data] []).dependencies
        = some "latest".data) ∧
    (∀ n ∈ ([] : List (List Char)),
      lookupKey n (installDependencies PkgManager.npm
        { dependencies := [("z".data, "1".data)] } ["e-lib".data] []).devDependencies
        = some "latest".data) ∧
    List.Pairwise keyLe (installDependencies PkgManager.npm
      { dependencies := [("z".data, "1".data)] } ["e-lib".data] []).dependencies ∧
    List.Pairwise keyLe (installDependencies PkgManager.npm
      { dependencies := [("z".data, "1".data)] } ["e-lib".data] []).devDependencies ∧
    (installDependencies PkgManager.npm { dependencies := [("z-lib".data, "1.0".data)] }
        ["a-lib".data] []).dependencies
      = [("a-lib".data, "latest".data), ("z-lib".data, "1.0".data)] := by
  exact claim_C5 PkgManager.npm { dependencies := [("z".data, "1".data)] }
    ["e-lib".data] [] (by decide) (by decide)

/-- C6 (confirmed): the manifest merge is frame-respecting —
`updatePackageJson` leaves dependencies, devDependencies and every other
manifest field untouched, `installDependencies` leaves scripts, lint-staged
and every other field untouched, a pre-existing script key not declared in
the updates keeps its value, and two providers adding distinct script keys
leave both present. -/
theorem claim_C6 (pkg : PackageJson) (u : PkgUpdates) (pm : PkgManager)
    (deps devDeps : List (List Char)) :
    (updatePackageJson pkg u).dependencies = pkg.dependencies ∧
    (updatePackageJson pkg u).devDependencies = pkg.devDependencies ∧
    (updatePackageJson pkg u).otherFields = pkg.otherFields ∧
    (installDependencies pm pkg deps devDeps).scripts = pkg.scripts ∧
    (installDependencies pm pkg deps devDeps).lintStaged = pkg.lintStaged ∧
    (installDependencies pm pkg deps devDeps).otherFields = pkg.otherFields ∧
    (∀ k : List Char, (∀ s, u.scripts = some s → k ∉ keysOf s) →
      lookupKey k (updatePackageJson pkg u).scripts = lookupKey k pkg.scripts) ∧
    (∀ (A B : FeatureResult) (k1 k2 v1 v2 : List Char),
      A.scripts = some [(k1, v1)] → B.scripts = some [(k2, v2)] → k1 ≠ k2 →
      lookupKey k1 (updatePackageJson pkg
        (toPkgUpdates (accumulate [(true, A), (true, B)]))).scripts = some v1 ∧
      lookupKey k2 (updatePackageJson pkg
        (toPkgUpdates (accumulate [(true, A), (true, B)]))).scripts = some v2) := by
  refine ⟨updatePackageJson_dependencies pkg u, updatePackageJson_devDependencies pkg u,
    updatePackageJson_otherFields pkg u, rfl, rfl, rfl, ?_, ?_⟩
  · intro k hk
    rw [updatePackageJson_scripts]
    cases hus : u.scripts with
    | none => rfl
    | some s => exact lookupKey_objectAssign_of_not_mem pkg.scripts (hk s hus)
  · intro A B k1 k2 v1 v2 hA hB hne
    have hacc : (accumulate [(true, A), (true, B)]).scripts = [(k1, v1), (k2, v2)] := by
      rw [accumulate_two, accumulateStep_scripts _ _ hB, accumulateStep_scripts _ _ hA]
      show setKey (setKey [] k1 v1) k2 v2 = [(k1, v1), (k2, v2)]
      rw [setKey_nil, setKey_single_ne v1 v2 hne]
    have hres : (updatePackageJson pkg
        (toPkgUpdates (accumulate [(true, A), (true, B)]))).scripts
        = setKey (setKey pkg.scripts k1 v1) k2 v2 := by
      rw [updatePackageJson_scripts]
      show objectAssign pkg.scripts ((accumulate [(true, A), (true, B)]).scripts)
          = setKey (setKey pkg.scripts k1 v1) k2 v2
      rw [hacc]
      rfl
    constructor
    · rw [hres, lookupKey_setKey_ne _ _ hne, lookupKey_setKey_self]
    · rw [hres, lookupKey_setKey_self]

/-- C6 at a concrete manifest and updates. -/
theorem claim_C6_witness :
    (updatePackageJson { scripts := [("dev".data, "vite".data)], otherFields := [("name".data, "demo".data)] }
      { scripts := some [("lint".data, "eslint".data)] }).dependencies
      = ({ scripts := [("dev".data, "vite".data)], otherFields := [("name".data, "demo".data)] } : PackageJson).dependencies := by
  exact (claim_C6 { scripts := [("dev".data, "vite".data)], otherFields := [("name".data, "demo".data)] }
    { scripts := some [("lint".data, "eslint".data)] } PkgManager.npm [] []).1

/-! ### List utilities for the regex development -/

theorem takeWhile_append_all {p : Char → Bool} {l : List Char} (X : List Char)
    (h : l.all p = true) : (l ++ X).takeWhile p = l ++ X.takeWhile p := by
  induction l with
  | nil => rfl
  | cons c l' ih =>
    simp only [List.all_cons, Bool.and_eq_true] at h
    simp [List.takeWhile_cons, h.1, ih h.2]

theorem takeWhile_append_stop {p : Char → Bool} {l : List Char} (X : List Char)
    (h : l.all p = false) : (l ++ X).takeWhile p = l.takeWhile p := by
  induction l with
  | nil => simp at h
  | cons c l' ih =>
    simp only [List.all_cons, Bool.and_eq_false_iff] at h
    rcases h with h | h
    · simp [List.takeWhile_cons, h]
    · cases hc : p c
      · simp [List.takeWhile_cons, hc]
      · simp [List.takeWhile_cons, hc, ih h]

theorem dropWhile_append_all {p : Char → Bool} {l : List Char} (X : List Char)
    (h : l.all p = true) : (l ++ X).dropWhile p = X.dropWhile p := by
  induction l with
  | nil => rfl
  | cons c l' ih =>
    simp only [List.all_cons, Bool.and_eq_true] at h
    simp [List.dropWhile_cons, h.1, ih h.2]

theorem dropWhile_append_stop {p : Char → Bool} {l : List Char} (X : List Char)
    (h : l.all p = false) : (l ++ X).dropWhile p = l.dropWhile p ++ X := by
  induction l with
  | nil => simp at h
  | cons c l' ih =>
    simp only [List.all_cons, Bool.and_eq_false_iff] at h
    rcases h with h | h
    · simp [List.dropWhile_cons, h]
    · cases hc : p c
      · simp [List.dropWhile_cons, hc]
      · simp [List.dropWhile_cons, hc, ih h]

theorem all_takeWhile (p : Char → Bool) (l : List Char) : (l.takeWhile p).all p = true := by
  induction l with
  | nil => rfl
  | cons c l' ih =>
    cases hc : p c
    · simp [List.takeWhile_cons, hc]
    · simp [List.takeWhile_cons, hc, ih]

theorem isPrefixOf_append_self (p X : List Char) : p.isPrefixOf (p ++ X) = true :=
  List.isPrefixOf_iff_prefix.mpr (List.prefix_append p X)

theorem isPrefixOf_extend {p a : List Char} (X : List Char) (h : p.isPrefixOf a = true) :
    p.isPrefixOf (a ++ X) = true :=
  List.isPrefixOf_iff_prefix.mpr ((List.isPrefixOf_iff_prefix.mp h).trans (List.prefix_append a X))

theorem exists_of_isPrefixOf {p t : List Char} (h : p.isPrefixOf t = true) :
    ∃ t', t = p ++ t' := by
  obtain ⟨t', ht⟩ := List.isPrefixOf_iff_prefix.mp h
  exact ⟨t', ht.symm⟩

theorem isPrefixOf_within {p a b : List Char} (c : Char)
    (h : p.isPrefixOf (a ++ c :: b) = true) (hc : c ∉ p) : p.isPrefixOf a = true := by
  induction a generalizing p with
  | nil =>
    cases p with
    | nil => rfl
    | cons x p' =>
      simp only [List.nil_append, List.isPrefixOf, Bool.and_eq_true, beq_iff_eq] at h
      exact absurd (h.1 ▸ List.mem_cons_self x p') hc
  | cons y a' ih =>
    cases p with
    | nil => rfl
    | cons x p' =>
      simp only [List.cons_append, List.isPrefixOf, Bool.and_eq_true] at h ⊢
      refine ⟨h.1, ih h.2 (fun hm => hc (List.mem_cons_of_mem x hm))⟩

theorem isPrefixOf_false_of_head_ne {x y : Char} {p t : List Char} (h : x ≠ y) :
    (x :: p).isPrefixOf (y :: t) = false := by
  simp [List.isPrefixOf, h]

theorem stripWSBoth_sandwich {ws1 X ws2 : List Char}
    (h1 : ws1.all isWS = true) (h2 : ws2.all isWS = true)
    (hhead : ∀ c X', X = c :: X' → isWS c = false)
    (hlast : ∀ c, X.getLast? = some c → isWS c = false)
    (hne : X ≠ []) :
    stripWSBoth (ws1 ++ (X ++ ws2)) = X := by
  obtain ⟨c, X', rfl⟩ : ∃ c X', X = c :: X' := by
    cases X with
    | nil => exact absurd rfl hne
    | cons c X' => exact ⟨c, X', rfl⟩
  unfold stripWSBoth
  rw [dropWhile_append_all _ h1, List.cons_append, List.dropWhile_cons, hhead c X' rfl]
  simp only [Bool.false_eq_true, if_false]
  rw [← List.cons_append, List.reverse_append,
    dropWhile_append_all _ (by simpa using h2)]
  have hlast' : ∃ d R, (c :: X').reverse = d :: R ∧ isWS d = false := by
    cases hr : (c :: X').reverse with
    | nil => exact absurd (List.reverse_eq_nil_iff.mp hr) (by simp)
    | cons d R =>
      refine ⟨d, R, rfl, ?_⟩
      apply hlast
      rw [← List.head?_reverse, hr]
      rfl
  obtain ⟨d, R, hdr, hd⟩ := hlast'
  rw [hdr, List.dropWhile_cons, hd]
  simp only [Bool.false_eq_true, if_false]
  rw [← hdr, List.reverse_reverse]

/-! ### Backtracking lemmas for `tryFrom` -/

theorem tryFrom_some {k : List Char → Option Nat} {cs : List Char} {m n : Nat}
    (h : tryFrom k cs m = some n) :
    ∃ j i, j ≤ m ∧ k (cs.drop j) = some i ∧ n = j + i := by
  induction m with
  | zero =>
    simp only [tryFrom] at h
    cases hk : k cs with
    | none => rw [hk] at h; exact absurd h (by simp)
    | some i =>
      rw [hk] at h
      exact ⟨0, i, Nat.le_refl 0, by simpa using hk, by simpa using h.symm⟩
  | succ m' ih =>
    simp only [tryFrom] at h
    cases hk : k (cs.drop (m' + 1)) with
    | some i =>
      rw [hk] at h
      exact ⟨m' + 1, i, Nat.le_refl _, hk, by simpa using h.symm⟩
    | none =>
      rw [hk] at h
      obtain ⟨j, i, hj, hki, hn⟩ := ih h
      exact ⟨j, i, Nat.le_succ_of_le hj, hki, hn⟩

theorem tryFrom_none {k : List Char → Option Nat} {cs : List Char} {m : Nat}
    (h : tryFrom k cs m = none) : ∀ j ≤ m, k (cs.drop j) = none := by
  induction m with
  | zero =>
    intro j hj
    interval_cases j
    simp only [tryFrom] at h
    cases hk : k cs with
    | none => simpa using hk
    | some i => rw [hk] at h; exact absurd h (by simp)
  | succ m' ih =>
    intro j hj
    simp only [tryFrom] at h
    cases hk : k (cs.drop (m' + 1)) with
    | some i => rw [hk] at h; exact absurd h (by simp)
    | none =>
      rw [hk] at h
      rcases Nat.lt_or_ge j (m' + 1) with hlt | hge
      · exact ih h j (Nat.lt_succ_iff.mp hlt)
      · have : j = m' + 1 := Nat.le_antisymm hj hge
        rw [this]
        exact hk

theorem tryFrom_isSome {k : List Char → Option Nat} {cs : List Char} {m j i : Nat}
    (hj : j ≤ m) (hk : k (cs.drop j) = some i) :
    ∃ n, tryFrom k cs m = some n := by
  cases hn : tryFrom k cs m with
  | some n => exact ⟨n, rfl⟩
  | none => exact absurd (tryFrom_none hn j hj) (by simp [hk])

theorem tryFrom_first {k : List Char → Option Nat} {cs : List Char} {m j0 i : Nat}
    (hj : j0 ≤ m) (hk : k (cs.drop j0) = some i)
    (hfail : ∀ j, j0 < j → j ≤ m → k (cs.drop j) = none) :
    tryFrom k cs m = some (j0 + i) := by
  induction m with
  | zero =>
    have hj0 : j0 = 0 := Nat.le_zero.mp hj
    subst hj0
    simp only [tryFrom]
    rw [show cs.drop 0 = cs from rfl] at hk
    rw [hk]
    simp
  | succ m' ih =>
    simp only [tryFrom]
    rcases Nat.lt_or_ge j0 (m' + 1) with hlt | hge
    · rw [hfail (m' + 1) hlt (Nat.le_refl _)]
      exact ih (Nat.lt_succ_iff.mp hlt) (fun j h1 h2 => hfail j h1 (Nat.le_succ_of_le h2))
    · have : j0 = m' + 1 := Nat.le_antisymm hj hge
      subst this
      rw [hk]

/-! ### Matching the per-key line regex -/

theorem dropWhile_head_not {p : Char → Bool} {l : List Char} {c : Char} {X : List Char}
    (h : l.dropWhile p = c :: X) : p c = false := by
  induction l with
  | nil => simp at h
  | cons a l' ih =>
    rw [List.dropWhile_cons] at h
    by_cases ha : p a = true
    · rw [if_pos ha] at h
      exact ih h
    · rw [if_neg ha] at h
      simp only [List.cons.injEq] at h
      rw [← h.1]
      exact Bool.not_eq_true _ ▸ ha

theorem matchREs_lineEnd_cons_ne {rs : List RE} {x : Char} {X : List Char}
    (hx : isLineTerm x = false) :
    matchREs (RE.lineEnd :: rs) (x :: X) = none := by
  simp only [matchREs, atLineEnd]
  rw [if_neg]
  simp [hx]

theorem matchREs_lineEnd_optNL_newline (rest : List Char) :
    matchREs [RE.lineEnd, RE.optNL] ('\n' :: rest) = some 1 := by
  simp [matchREs, atLineEnd, isLineTerm]

theorem matchREs_lineEnd_optNL_nil : matchREs [RE.lineEnd, RE.optNL] [] = some 0 := by
  simp [matchREs, atLineEnd]

theorem matchREs_lineEnd_optNL_term {t : Char} (rest : List Char)
    (ht : isLineTerm t = true) (hne : t ≠ '\n') :
    matchREs [RE.lineEnd, RE.optNL] (t :: rest) = some 0 := by
  simp only [matchREs, atLineEnd, ht, if_true]
  split
  · rename_i cs2 heq
    injection heq with h1
    exact absurd h1 hne
  · rfl

theorem isWS_of_isLineTerm {c : Char} (h : isLineTerm c = true) : isWS c = true := by
  unfold isLineTerm at h
  simp only [Bool.or_eq_true, decide_eq_true_eq] at h
  rcases h with ((h | h) | h) | h
  · subst h
    decide
  · subst h
    decide
  · unfold isWS
    rw [h]
    simp
  · unfold isWS
    rw [h]
    simp

theorem isLineTerm_eq_false_of_not_isWS {c : Char} (h : isWS c = false) :
    isLineTerm c = false := by
  cases hlt : isLineTerm c with
  | false => rfl
  | true => rw [isWS_of_isLineTerm hlt] at h; exact absurd h (by simp)

theorem not_isLineTerm_of_isDot {c : Char} (h : isDot c = true) :
    isLineTerm c = false := by
  unfold isDot at h
  cases hlt : isLineTerm c with
  | false => rfl
  | true => rw [hlt] at h; exact absurd h (by decide)

theorem matchREs_star_eq (p : Char → Bool) (rs : List RE) (cs : List Char) :
    matchREs (RE.star p :: rs) cs = tryFrom (matchREs rs) cs ((cs.takeWhile p).length) := rfl

theorem matchREs_lit_eq (t : List Char) (rs : List RE) (cs : List Char) :
    matchREs (RE.lit t :: rs) cs =
      if t.isPrefixOf cs then (matchREs rs (cs.drop t.length)).map (t.length + ·)
      else none := rfl

/-- The trailing `\s*$\n?` of both template regexes, matched after the token
on a line whose whitespace tail is `ws2`: it always consumes exactly
`ws2 ++ ['\n']`, provided the following content does not begin with a
whitespace-only line (that case is excluded by the callers' hypotheses). -/
theorem matchREs_trailing {ws2 rest : List Char} (hw2 : ws2.all isWS = true)
    (hrest1 : ∀ c ∈ rest.takeWhile isWS, isLineTerm c = false)
    (hrest2 : rest.takeWhile isWS = rest → rest = []) :
    matchREs [RE.star isWS, RE.lineEnd, RE.optNL] (ws2 ++ ('\n' :: rest))
      = some (ws2.length + 1) := by
  by_cases hcase : rest.takeWhile isWS = rest
  · have hr : rest = [] := hrest2 hcase
    subst hr
    rw [matchREs_star_eq]
    rw [show ((ws2 ++ ('\n' :: [])).takeWhile isWS) = ws2 ++ ['\n'] from by
      rw [takeWhile_append_all _ hw2,
        show List.takeWhile isWS ['\n'] = ['\n'] from by decide]]
    have hk : matchREs [RE.lineEnd, RE.optNL] ((ws2 ++ ('\n' :: [])).drop ((ws2 ++ ['\n']).length))
        = some 0 := by
      rw [List.drop_eq_nil_of_le (by simp)]
      exact matchREs_lineEnd_optNL_nil
    rw [tryFrom_first (Nat.le_refl _) hk
      (fun j h1 h2 => absurd (Nat.lt_of_lt_of_le h1 h2) (Nat.lt_irrefl _))]
    simp
  · have hsplit := (List.takeWhile_append_dropWhile isWS rest).symm
    have hdne : rest.dropWhile isWS ≠ [] := by
      intro h
      apply hcase
      conv_rhs => rw [hsplit]
      rw [h, List.append_nil]
    obtain ⟨d0, drest', hd0⟩ : ∃ d0 drest', rest.dropWhile isWS = d0 :: drest' := by
      cases hdd : rest.dropWhile isWS with
      | nil => exact absurd hdd hdne
      | cons d0 drest' => exact ⟨d0, drest', rfl⟩
    have hd0ws : isWS d0 = false := dropWhile_head_not hd0
    have hrun : (ws2 ++ ('\n' :: rest)).takeWhile isWS = ws2 ++ ('\n' :: rest.takeWhile isWS) := by
      rw [takeWhile_append_all _ hw2]
      congr 1
    rw [matchREs_star_eq, hrun]
    have hk : matchREs [RE.lineEnd, RE.optNL] ((ws2 ++ ('\n' :: rest)).drop ws2.length)
        = some 1 := by
      rw [show ws2.length = ws2.length + 0 from rfl, List.drop_append 0]
      exact matchREs_lineEnd_optNL_newline rest
    have hm : ws2.length ≤ (ws2 ++ ('\n' :: rest.takeWhile isWS)).length := by
      simp only [List.length_append]
      omega
    have hfail : ∀ j, ws2.length < j → j ≤ (ws2 ++ ('\n' :: rest.takeWhile isWS)).length →
        matchREs [RE.lineEnd, RE.optNL] ((ws2 ++ ('\n' :: rest)).drop j) = none := by
      intro j h1 h2
      simp only [List.length_append, List.length_cons] at h2
      have hdrop : (ws2 ++ ('\n' :: rest)).drop j = rest.drop (j - ws2.length - 1) := by
        obtain ⟨d, rfl⟩ : ∃ d, j = ws2.length + (d + 1) := ⟨j - ws2.length - 1, by omega⟩
        rw [List.drop_append]
        rw [show ws2.length + (d + 1) - ws2.length - 1 = d from by omega]
        rfl
      rw [hdrop]
      have he : j - ws2.length - 1 ≤ (rest.takeWhile isWS).length := by omega
      cases hre : rest.drop (j - ws2.length - 1) with
      | nil =>
        exfalso
        have hlen : rest.length ≤ j - ws2.length - 1 := by
          by_contra hlt
          have := congrArg List.length hre
          simp only [List.length_drop, List.length_nil] at this
          omega
        have hwlt : (rest.takeWhile isWS).length < rest.length := by
          conv_rhs => rw [hsplit]
          rw [hd0]
          simp only [List.length_append, List.length_cons]
          omega
        omega
      | cons r0 rX =>
        have hr0 : isLineTerm r0 = false := by
          have hh : rest[j - ws2.length - 1]? = some r0 := by
            rw [← List.head?_drop, hre]
            rfl
          rcases Nat.lt_or_ge (j - ws2.length - 1) (rest.takeWhile isWS).length with hlt | hge
          · have heq : rest[j - ws2.length - 1]? = (rest.takeWhile isWS)[j - ws2.length - 1]? := by
              conv_lhs => rw [hsplit]
              rw [List.getElem?_append, if_pos hlt]
            rw [heq] at hh
            exact hrest1 _ (List.getElem?_mem hh)
          · have hej : j - ws2.length - 1 = (rest.takeWhile isWS).length := Nat.le_antisymm he hge
            have heq : rest[j - ws2.length - 1]? = some d0 := by
              conv_lhs => rw [hsplit]
              rw [List.getElem?_append, if_neg (by omega), hej, Nat.sub_self, hd0]
              simp
            rw [heq] at hh
            injection hh with hh'
            exact isLineTerm_eq_false_of_not_isWS (hh' ▸ hd0ws)
        exact matchREs_lineEnd_cons_ne hr0
    rw [tryFrom_first hm hk hfail]

/-- The per-key line regex matches at the start of a line that is the token
surrounded by whitespace, consuming the line and its newline. -/
theorem matchREs_lineRE_value {name ws1 ws2 rest : List Char}
    (hw1 : ws1.all isWS = true) (hw2 : ws2.all isWS = true)
    (hrest1 : ∀ c ∈ rest.takeWhile isWS, isLineTerm c = false)
    (hrest2 : rest.takeWhile isWS = rest → rest = []) :
    matchREs (lineREFor name) (ws1 ++ (tokOf name ++ (ws2 ++ ('\n' :: rest))))
      = some (ws1.length + ((tokOf name).length + (ws2.length + 1))) := by
  have htok : tokOf name = '{' :: ('{' :: (' ' :: (name ++ closeTok))) := rfl
  have hrun : ((ws1 ++ (tokOf name ++ (ws2 ++ ('\n' :: rest)))).takeWhile isWS) = ws1 := by
    rw [takeWhile_append_all _ hw1, htok, List.cons_append, List.takeWhile_cons,
      if_neg (by decide), List.append_nil]
  show matchREs (RE.star isWS ::
    [RE.lit (tokOf name), RE.star isWS, RE.lineEnd, RE.optNL]) _ = _
  rw [matchREs_star_eq, hrun]
  have hk : matchREs [RE.lit (tokOf name), RE.star isWS, RE.lineEnd, RE.optNL]
      ((ws1 ++ (tokOf name ++ (ws2 ++ ('\n' :: rest)))).drop ws1.length)
      = some ((tokOf name).length + (ws2.length + 1)) := by
    rw [List.drop_left, matchREs_lit_eq, if_pos (isPrefixOf_append_self _ _), List.drop_left,
      matchREs_trailing hw2 hrest1 hrest2]
    rfl
  rw [tryFrom_first (Nat.le_refl _) hk
    (fun j h1 h2 => absurd (Nat.lt_of_lt_of_le h1 h2) (Nat.lt_irrefl _))]

theorem takeWhile_length_le (p : Char → Bool) (l : List Char) :
    (l.takeWhile p).length ≤ l.length := by
  induction l with
  | nil => simp
  | cons c l' ih =>
    rw [List.takeWhile_cons]
    split
    · simpa using ih
    · simp

theorem length_takeWhile_lt_of_not_all {p : Char → Bool} {l : List Char}
    (h : l.all p = false) : (l.takeWhile p).length < l.length := by
  have hsplit := (List.takeWhile_append_dropWhile p l).symm
  have hdne : l.dropWhile p ≠ [] := by
    intro hd
    rw [hsplit, hd, List.append_nil] at h
    exact absurd (all_takeWhile p l) (by rw [h]; simp)
  conv_rhs => rw [hsplit]
  rw [List.length_append]
  have : 0 < (l.dropWhile p).length := List.length_pos.mpr hdne
  omega

theorem head?_drop_append {X Y : List Char} {j : Nat} (h : j < X.length) :
    ((X ++ Y).drop j).head? = X[j]? := by
  rw [List.head?_drop, List.getElem?_append, if_pos h]

/-- If the anchored body `\s* lit ...` matches at a line start and the line
is not whitespace-only, the literal must start right after the line's
leading whitespace. -/
theorem leading_lit {t : List Char} {rs : List RE} {l rest' : List Char}
    (htok : ∃ tl, t = '{' :: tl) (hnw : l.all isWS = false)
    (hm : (matchREs (RE.star isWS :: RE.lit t :: rs) (l ++ rest')).isSome = true) :
    t.isPrefixOf (l.dropWhile isWS ++ rest') = true ∧
    (matchREs rs ((l.dropWhile isWS ++ rest').drop t.length)).isSome = true := by
  obtain ⟨tl, rfl⟩ := htok
  rw [matchREs_star_eq] at hm
  rw [takeWhile_append_stop _ hnw] at hm
  obtain ⟨n, hn⟩ := Option.isSome_iff_exists.mp hm
  obtain ⟨j, i, hj, hki, -⟩ := tryFrom_some hn
  have hsplit := (List.takeWhile_append_dropWhile isWS l).symm
  have hj' : j = (l.takeWhile isWS).length := by
    rcases Nat.lt_or_ge j (l.takeWhile isWS).length with hlt | hge
    · exfalso
      have hjl : j < l.length := Nat.lt_of_lt_of_le hlt (takeWhile_length_le _ _)
      have hhead : ((l ++ rest').drop j).head? = l[j]? := head?_drop_append hjl
      have hx : l[j]? = (l.takeWhile isWS)[j]? := by
        conv_lhs => rw [hsplit]
        rw [List.getElem?_append, if_pos hlt]
      cases hgx : (l.takeWhile isWS)[j]? with
      | none => exact absurd hgx (by simp [hlt])
      | some w =>
        have hw : isWS w = true :=
          List.all_eq_true.mp (all_takeWhile isWS l) w (List.getElem?_mem hgx)
        have hwne : '{' ≠ w := by
          intro hcon
          rw [← hcon] at hw
          exact absurd hw (by decide)
        cases hdj : (l ++ rest').drop j with
        | nil => rw [hdj] at hhead; rw [hx, hgx] at hhead; exact absurd hhead (by simp)
        | cons c X =>
          rw [hdj] at hhead
          rw [hx, hgx] at hhead
          simp only [List.head?_cons] at hhead
          injection hhead with hc
          rw [hdj, matchREs_lit_eq, if_neg (by
            rw [hc]
            rw [isPrefixOf_false_of_head_ne hwne]
            simp)] at hki
          exact absurd hki (by simp)
    · exact Nat.le_antisymm hj hge
  subst hj'
  have hdr : (l ++ rest').drop (l.takeWhile isWS).length = l.dropWhile isWS ++ rest' := by
    conv_lhs =>
      rw [show l ++ rest' = l.takeWhile isWS ++ (l.dropWhile isWS ++ rest') from by
        rw [← List.append_assoc, List.takeWhile_append_dropWhile]]
    exact List.drop_left _ _
  rw [hdr] at hki
  rw [matchREs_lit_eq] at hki
  by_cases hpre : ('{' :: tl).isPrefixOf (l.dropWhile isWS ++ rest') = true
  · rw [if_pos hpre] at hki
    refine ⟨hpre, ?_⟩
    cases hin : matchREs rs ((l.dropWhile isWS ++ rest').drop ('{' :: tl).length) with
    | none => rw [hin] at hki; exact absurd hki (by simp)
    | some v => simp
  · rw [if_neg hpre] at hki
    exact absurd hki (by simp)

/-- If the trailing `\s*$\n?` matches on content whose line part contains no
line terminator, the whole line part must be whitespace. -/
theorem trailing_all_ws {l4 rest' : List Char}
    (hsub : ∀ x ∈ l4, isLineTerm x = false)
    (hm : (matchREs [RE.star isWS, RE.lineEnd, RE.optNL] (l4 ++ rest')).isSome = true) :
    l4.all isWS = true := by
  by_contra hnall
  have hnall' : l4.all isWS = false := Bool.not_eq_true _ ▸ hnall
  rw [matchREs_star_eq, takeWhile_append_stop _ hnall'] at hm
  obtain ⟨n, hn⟩ := Option.isSome_iff_exists.mp hm
  obtain ⟨j, i, hj, hki, -⟩ := tryFrom_some hn
  have hjl : j < l4.length :=
    Nat.lt_of_le_of_lt hj (length_takeWhile_lt_of_not_all hnall')
  have hhead : ((l4 ++ rest').drop j).head? = l4[j]? := head?_drop_append hjl
  cases hgx : l4[j]? with
  | none => exact absurd hgx (by simp [hjl])
  | some x =>
    have hx : isLineTerm x = false := hsub x (List.getElem?_mem hgx)
    cases hdj : (l4 ++ rest').drop j with
    | nil => rw [hdj] at hhead; rw [hgx] at hhead; exact absurd hhead (by simp)
    | cons c X =>
      rw [hdj] at hhead
      rw [hgx] at hhead
      simp only [List.head?_cons] at hhead
      injection hhead with hc
      rw [hdj, matchREs_lineEnd_cons_ne (hc ▸ hx)] at hki
      exact absurd hki (by simp)

theorem drop_append_le {X Y : List Char} {j : Nat} (h : j ≤ X.length) :
    (X ++ Y).drop j = X.drop j ++ Y := by
  induction j generalizing X with
  | zero => rfl
  | succ j' ih =>
    cases X with
    | nil => exact absurd h (by simp)
    | cons c X' =>
      simp only [List.cons_append, List.drop_succ_cons]
      exact ih (by simpa using h)

theorem take_append_le {X Y : List Char} {j : Nat} (h : j ≤ X.length) :
    (X ++ Y).take j = X.take j := by
  induction j generalizing X with
  | zero => rfl
  | succ j' ih =>
    cases X with
    | nil => exact absurd h (by simp)
    | cons c X' =>
      simp only [List.cons_append, List.take_succ_cons]
      rw [ih (by simpa using h)]

theorem toK_assoc (mid : List Char) : tokOf mid = openTok ++ (mid ++ closeTok) :=
  List.append_assoc openTok mid closeTok

theorem tokOf_cons (mid : List Char) :
    tokOf mid = '{' :: ('{' :: (' ' :: (mid ++ closeTok))) := rfl

/-- Any line of the shape `ws ++ token ++ ws` is recognised by
`isCleanupLine`. -/
theorem isCleanupLine_build {lws mid w3 : List Char}
    (h1 : lws.all isWS = true) (h2 : w3.all isWS = true) (hdots : mid.all isDot = true) :
    isCleanupLine (lws ++ (tokOf mid ++ w3)) = true := by
  have hlen : (tokOf mid).length = mid.length + 6 := by
    rw [toK_assoc]
    simp only [List.length_append]
    rw [show openTok.length = 3 from rfl, show closeTok.length = 3 from rfl]
    omega
  have hstrip : stripWSBoth (lws ++ (tokOf mid ++ w3)) = tokOf mid := by
    apply stripWSBoth_sandwich h1 h2
    · intro c X' hX
      rw [tokOf_cons] at hX
      injection hX with hc _
      rw [← hc]
      decide
    · intro c hc
      rw [show tokOf mid = ((openTok ++ mid) ++ [' ', '}']) ++ ['}'] from by
        simp [tokOf, closeTok, List.append_assoc]] at hc
      rw [List.getLast?_concat] at hc
      injection hc with hc'
      rw [← hc']
      decide
    · rw [tokOf_cons]
      simp
  unfold isCleanupLine
  rw [hstrip]
  simp only [Bool.and_eq_true, decide_eq_true_eq]
  refine ⟨⟨⟨?_, ?_⟩, ?_⟩, ?_⟩
  · rw [toK_assoc, show (3 : Nat) = openTok.length from rfl, List.take_left]
  · rw [hlen]
    omega
  · rw [show (tokOf mid).length - 3 = (openTok ++ mid).length from by
      rw [hlen]
      simp only [List.length_append]
      rw [show openTok.length = 3 from rfl]
      omega]
    rw [show tokOf mid = (openTok ++ mid) ++ closeTok from rfl, List.drop_left]
  · rw [show (tokOf mid).length - 6 = mid.length from by rw [hlen]; omega]
    rw [toK_assoc, show (3 : Nat) = openTok.length from rfl, List.drop_left, List.take_left]
    exact hdots

theorem isCleanupLine_of_isPlacLine {name l : List Char}
    (hdots : name.all isDot = true) (hp : isPlacLine name l = true) :
    isCleanupLine l = true := by
  unfold isPlacLine at hp
  simp only [Bool.and_eq_true] at hp
  obtain ⟨hpre, hall⟩ := hp
  obtain ⟨w3, hw3⟩ := exists_of_isPrefixOf hpre
  have hw3ws : w3.all isWS = true := by
    rw [hw3, List.drop_left] at hall
    exact hall
  have hl : l = l.takeWhile isWS ++ (tokOf name ++ w3) := by
    conv_lhs => rw [← List.takeWhile_append_dropWhile isWS l]
    rw [hw3]
  rw [hl]
  exact isCleanupLine_build (all_takeWhile _ _) hw3ws hdots

theorem not_newline_mem_tokOf {name : List Char} (hname : '\n' ∉ name) :
    '\n' ∉ tokOf name := by
  intro hmem
  rw [tokOf_cons] at hmem
  simp only [List.mem_cons, List.mem_append] at hmem
  rcases hmem with h | h | h | h
  · exact absurd h (by decide)
  · exact absurd h (by decide)
  · exact absurd h (by decide)
  · rcases h with h | h
    · exact hname h
    · revert h
      decide

theorem isDot_eq_false_of_isLineTerm {t : Char} (ht : isLineTerm t = true) :
    isDot t = false := by
  unfold isDot
  rw [ht]
  rfl

theorem isPrefixOf_within_rest {p a rest' : List Char}
    (h : p.isPrefixOf (a ++ rest') = true) (hp : ∀ c ∈ p, isLineTerm c = false)
    (hr : rest' = [] ∨ ∃ t, rest'.head? = some t ∧ isLineTerm t = true) :
    p.isPrefixOf a = true := by
  rcases hr with rfl | ⟨t, hh, ht⟩
  · rw [List.append_nil] at h
    exact h
  · cases rest' with
    | nil => rw [List.append_nil] at h; exact h
    | cons c r2 =>
      simp only [List.head?_cons, Option.some.injEq] at hh
      rw [← hh] at ht
      exact isPrefixOf_within c h
        (fun hmem => by rw [hp c hmem] at ht; exact absurd ht (by simp))

/-- A cleanup-regex match at a line start forces the line to be a line-level
placeholder token. -/
theorem isCleanupLine_of_cleanup_match {l rest' : List Char}
    (hterm : ∀ c ∈ l, isLineTerm c = false) (hnw : l.all isWS = false)
    (hr : rest' = [] ∨ ∃ t, rest'.head? = some t ∧ isLineTerm t = true)
    (hm : (matchREs cleanupRE (l ++ rest')).isSome = true) :
    isCleanupLine l = true := by
  obtain ⟨hpre, hinner⟩ := leading_lit (t := openTok) ⟨_, rfl⟩ hnw hm
  have hpre' : openTok.isPrefixOf (l.dropWhile isWS) = true :=
    isPrefixOf_within_rest hpre (by decide) hr
  obtain ⟨l3, hl3⟩ := exists_of_isPrefixOf hpre'
  have hdr : (l.dropWhile isWS ++ rest').drop openTok.length = l3 ++ rest' := by
    rw [hl3, List.append_assoc, List.drop_left]
  rw [hdr] at hinner
  have hsub3 : ∀ x ∈ l3, isLineTerm x = false := by
    intro x hx
    apply hterm
    have h1 : x ∈ l.dropWhile isWS := by
      rw [hl3]
      exact List.mem_append_right _ hx
    rw [← List.takeWhile_append_dropWhile isWS l]
    exact List.mem_append_right _ h1
  rw [matchREs_star_eq] at hinner
  obtain ⟨n, hn⟩ := Option.isSome_iff_exists.mp hinner
  obtain ⟨j2, i, hj2, hki, -⟩ := tryFrom_some hn
  have hrunle : ((l3 ++ rest').takeWhile isDot).length ≤ l3.length := by
    by_cases hdots3 : l3.all isDot = true
    · rw [takeWhile_append_all _ hdots3]
      rcases hr with rfl | ⟨t, hh, ht⟩
      · simp
      · cases rest' with
        | nil => simp
        | cons c r2 =>
          simp only [List.head?_cons, Option.some.injEq] at hh
          rw [← hh] at ht
          rw [List.takeWhile_cons, if_neg (by simp [isDot_eq_false_of_isLineTerm ht])]
          simp
    · rw [takeWhile_append_stop _ (Bool.not_eq_true _ ▸ hdots3)]
      exact takeWhile_length_le _ _
  have hj2l : j2 ≤ l3.length := Nat.le_trans hj2 hrunle
  rw [matchREs_lit_eq] at hki
  by_cases hcp : closeTok.isPrefixOf ((l3 ++ rest').drop j2) = true
  · rw [if_pos hcp] at hki
    have hdropj2 : (l3 ++ rest').drop j2 = l3.drop j2 ++ rest' := drop_append_le hj2l
    rw [hdropj2] at hcp hki
    have hcp' : closeTok.isPrefixOf (l3.drop j2) = true :=
      isPrefixOf_within_rest hcp (by decide) hr
    obtain ⟨l4, hl4⟩ := exists_of_isPrefixOf hcp'
    have hmid : (l3.take j2).all isDot = true := by
      have h1 : (l3 ++ rest').take j2 = l3.take j2 := take_append_le hj2l
      have h2 : (l3 ++ rest').take j2 = ((l3 ++ rest').takeWhile isDot).take j2 := by
        conv_lhs => rw [← List.takeWhile_append_dropWhile isDot (l3 ++ rest')]
        exact take_append_le hj2
      apply List.all_eq_true.mpr
      intro x hx
      rw [← h1, h2] at hx
      exact List.all_eq_true.mp (all_takeWhile isDot _) x (List.mem_of_mem_take hx)
    have hdr4 : (l3.drop j2 ++ rest').drop closeTok.length = l4 ++ rest' := by
      rw [hl4, List.append_assoc, List.drop_left]
    rw [hdr4] at hki
    have hsub4 : ∀ x ∈ l4, isLineTerm x = false := by
      intro x hx
      apply hsub3
      rw [show l3 = l3.take j2 ++ l3.drop j2 from (List.take_append_drop j2 l3).symm, hl4]
      exact List.mem_append_right _ (List.mem_append_right _ hx)
    have hl4ws : l4.all isWS = true := by
      apply trailing_all_ws hsub4
      cases hmm : matchREs [RE.star isWS, RE.lineEnd, RE.optNL] (l4 ++ rest') with
      | none => rw [hmm] at hki; exact absurd hki (by simp)
      | some v => simp
    have hl3' : l3 = l3.take j2 ++ (closeTok ++ l4) := by
      conv_lhs => rw [← List.take_append_drop j2 l3]
      rw [hl4]
    have hldecomp : l = l.takeWhile isWS ++ (tokOf (l3.take j2) ++ l4) := by
      conv_lhs => rw [← List.takeWhile_append_dropWhile isWS l]
      congr 1
      rw [hl3]
      conv_lhs => rw [hl3']
      simp [tokOf, List.append_assoc]
    rw [hldecomp]
    exact isCleanupLine_build (all_takeWhile _ _) hl4ws hmid
  · rw [if_neg hcp] at hki
    exact absurd hki (by simp)

/-- Decompose a list into the reverse-strip of a predicate and the stripped
whitespace tail. -/
theorem rev_strip_decomp (p : Char → Bool) (u : List Char) :
    u = (u.reverse.dropWhile p).reverse ++ (u.reverse.takeWhile p).reverse := by
  conv_lhs => rw [← List.reverse_reverse u, ← List.takeWhile_append_dropWhile p u.reverse]
  rw [List.reverse_append]

/-- Decompose a line recognised by `isCleanupLine` into whitespace, a
token and trailing whitespace. -/
theorem isCleanupLine_exists {l : List Char} (h : isCleanupLine l = true) :
    ∃ mid w3, l = l.takeWhile isWS ++ (tokOf mid ++ w3) ∧
      mid.all isDot = true ∧ w3.all isWS = true := by
  unfold isCleanupLine at h
  simp only [Bool.and_eq_true, decide_eq_true_eq] at h
  obtain ⟨⟨⟨h1, h2⟩, h3⟩, h4⟩ := h
  have htmid : stripWSBoth l
      = openTok ++ (((stripWSBoth l).drop 3).take ((stripWSBoth l).length - 6) ++ closeTok) := by
    conv_lhs => rw [← List.take_append_drop 3 (stripWSBoth l)]
    rw [h1]
    congr 1
    conv_lhs => rw [← List.take_append_drop ((stripWSBoth l).length - 6) ((stripWSBoth l).drop 3)]
    congr 1
    rw [List.drop_drop,
      show 3 + ((stripWSBoth l).length - 6) = (stripWSBoth l).length - 3 from by omega]
    exact h3
  refine ⟨((stripWSBoth l).drop 3).take ((stripWSBoth l).length - 6),
    ((l.dropWhile isWS).reverse.takeWhile isWS).reverse, ?_, h4, ?_⟩
  · conv_lhs => rw [← List.takeWhile_append_dropWhile isWS l]
    congr 1
    conv_lhs => rw [rev_strip_decomp isWS (l.dropWhile isWS)]
    exact congrArg (· ++ ((l.dropWhile isWS).reverse.takeWhile isWS).reverse)
      (htmid.trans (toK_assoc _).symm)
  · rw [List.all_reverse]
    exact all_takeWhile _ _

/-- A line recognised by `isCleanupLine`, placed at a line start, is matched
by the cleanup regex. -/
theorem cleanup_match_of_isCleanupLine {l rest' : List Char} (h : isCleanupLine l = true)
    (hr : rest' = [] ∨ ∃ t, rest'.head? = some t ∧ isLineTerm t = true) :
    (matchREs cleanupRE (l ++ rest')).isSome = true := by
  obtain ⟨mid, w3, hdecomp, hdots, hw3⟩ := isCleanupLine_exists h
  have hcs : l ++ rest' = l.takeWhile isWS ++ (tokOf mid ++ (w3 ++ rest')) := by
    conv_lhs => rw [hdecomp]
    simp [List.append_assoc]
  rw [hcs]
  have hrun : ((l.takeWhile isWS ++ (tokOf mid ++ (w3 ++ rest'))).takeWhile isWS)
      = l.takeWhile isWS := by
    rw [takeWhile_append_all _ (all_takeWhile _ _), tokOf_cons]
    simp only [List.cons_append]
    rw [List.takeWhile_cons, if_neg (by decide), List.append_nil]
  show (matchREs (RE.star isWS :: [RE.lit openTok, RE.star isDot, RE.lit closeTok,
    RE.star isWS, RE.lineEnd, RE.optNL]) _).isSome = true
  rw [matchREs_star_eq, hrun]
  -- innermost: the trailing part matches on `rest'`
  have hend : (matchREs [RE.lineEnd, RE.optNL] rest').isSome = true := by
    rcases hr with rfl | ⟨t, hh, ht⟩
    · rw [matchREs_lineEnd_optNL_nil]
      rfl
    · cases rest' with
      | nil => rw [matchREs_lineEnd_optNL_nil]; rfl
      | cons c r2 =>
        simp only [List.head?_cons, Option.some.injEq] at hh
        rw [← hh] at ht
        by_cases hc : c = '\n'
        · subst hc
          rw [matchREs_lineEnd_optNL_newline]
          rfl
        · rw [matchREs_lineEnd_optNL_term _ ht hc]
          rfl
  have hstar3 : (matchREs [RE.star isWS, RE.lineEnd, RE.optNL] (w3 ++ rest')).isSome
      = true := by
    rw [matchREs_star_eq]
    obtain ⟨e, he⟩ := Option.isSome_iff_exists.mp hend
    have hw3drop : (w3 ++ rest').drop w3.length = rest' := List.drop_left _ _
    have hw3le : w3.length ≤ ((w3 ++ rest').takeWhile isWS).length := by
      rw [takeWhile_append_all _ hw3, List.length_append]
      omega
    obtain ⟨n3, hn3⟩ := tryFrom_isSome hw3le (by rw [hw3drop]; exact he)
    rw [hn3]
    rfl
  have hlit2 : (matchREs [RE.lit closeTok, RE.star isWS, RE.lineEnd, RE.optNL]
      (closeTok ++ (w3 ++ rest'))).isSome = true := by
    rw [matchREs_lit_eq, if_pos (isPrefixOf_append_self _ _), List.drop_left]
    obtain ⟨v, hv⟩ := Option.isSome_iff_exists.mp hstar3
    rw [hv]
    rfl
  have hstar2 : (matchREs [RE.star isDot, RE.lit closeTok, RE.star isWS, RE.lineEnd,
      RE.optNL] (mid ++ (closeTok ++ (w3 ++ rest')))).isSome = true := by
    rw [matchREs_star_eq]
    have hmidle : mid.length ≤ ((mid ++ (closeTok ++ (w3 ++ rest'))).takeWhile isDot).length := by
      rw [takeWhile_append_all _ hdots, List.length_append]
      omega
    obtain ⟨e2, he2⟩ := Option.isSome_iff_exists.mp hlit2
    obtain ⟨n2, hn2⟩ := tryFrom_isSome hmidle (by rw [List.drop_left]; exact he2)
    rw [hn2]
    rfl
  have hlit1 : (matchREs [RE.lit openTok, RE.star isDot, RE.lit closeTok, RE.star isWS,
      RE.lineEnd, RE.optNL] (tokOf mid ++ (w3 ++ rest'))).isSome = true := by
    rw [show tokOf mid ++ (w3 ++ rest') = openTok ++ (mid ++ (closeTok ++ (w3 ++ rest')))
      from by rw [toK_assoc]; simp [List.append_assoc]]
    rw [matchREs_lit_eq, if_pos (isPrefixOf_append_self _ _), List.drop_left]
    obtain ⟨v, hv⟩ := Option.isSome_iff_exists.mp hstar2
    rw [hv]
    rfl
  obtain ⟨e1, he1⟩ := Option.isSome_iff_exists.mp hlit1
  obtain ⟨n1, hn1⟩ := tryFrom_isSome (Nat.le_refl (l.takeWhile isWS).length)
    (by rw [List.drop_left]; exact he1)
  rw [hn1]
  rfl

/-- Every cleanup-regex match consumes at least one character. -/
theorem cleanup_match_pos {cs : List Char} {n : Nat}
    (h : matchREs cleanupRE cs = some n) : 1 ≤ n := by
  rw [show cleanupRE = RE.star isWS :: [RE.lit openTok, RE.star isDot, RE.lit closeTok,
    RE.star isWS, RE.lineEnd, RE.optNL] from rfl, matchREs_star_eq] at h
  obtain ⟨j, i, -, hki, hn⟩ := tryFrom_some h
  rw [matchREs_lit_eq] at hki
  by_cases hp : openTok.isPrefixOf (cs.drop j) = true
  · rw [if_pos hp] at hki
    cases hin : matchREs [RE.star isDot, RE.lit closeTok, RE.star isWS, RE.lineEnd, RE.optNL]
        ((cs.drop j).drop openTok.length) with
    | none => rw [hin] at hki; exact absurd hki (by simp)
    | some v =>
      rw [hin] at hki
      simp only [Option.map_some', Option.some.injEq] at hki
      have h3 : openTok.length = 3 := rfl
      omega
  · rw [if_neg hp] at hki
    exact absurd hki (by simp)

/-- Every cleanup-regex match ends at the end of the content, just after a
consumed `'\n'`, or just before an unconsumed line terminator: the scan
resumes at a line start or at a terminator it will copy. -/
theorem cleanup_match_end {cs : List Char} {n : Nat}
    (h : matchREs cleanupRE cs = some n) :
    cs.drop n = [] ∨ (cs.take n).getLast? = some '\n' ∨
      (∃ t rest2, cs.drop n = t :: rest2 ∧ isLineTerm t = true) := by
  rw [show cleanupRE = RE.star isWS :: [RE.lit openTok, RE.star isDot, RE.lit closeTok,
    RE.star isWS, RE.lineEnd, RE.optNL] from rfl, matchREs_star_eq] at h
  obtain ⟨j1, i1, -, hk1, hn1⟩ := tryFrom_some h
  rw [matchREs_lit_eq] at hk1
  by_cases hp1 : openTok.isPrefixOf (cs.drop j1) = true
  swap
  · rw [if_neg hp1] at hk1; exact absurd hk1 (by simp)
  rw [if_pos hp1] at hk1
  cases hin1 : matchREs [RE.star isDot, RE.lit closeTok, RE.star isWS, RE.lineEnd, RE.optNL]
      ((cs.drop j1).drop openTok.length) with
  | none => rw [hin1] at hk1; exact absurd hk1 (by simp)
  | some i2 =>
  rw [hin1] at hk1
  simp only [Option.map_some', Option.some.injEq] at hk1
  rw [List.drop_drop] at hin1
  rw [matchREs_star_eq] at hin1
  obtain ⟨j2, i3, -, hk2, hn2⟩ := tryFrom_some hin1
  rw [List.drop_drop, matchREs_lit_eq] at hk2
  by_cases hp2 : closeTok.isPrefixOf (cs.drop (j1 + openTok.length + j2)) = true
  swap
  · rw [if_neg hp2] at hk2
    exact absurd hk2 (by simp)
  rw [if_pos hp2] at hk2
  cases hin2 : matchREs [RE.star isWS, RE.lineEnd, RE.optNL]
      ((cs.drop (j1 + openTok.length + j2)).drop closeTok.length) with
  | none =>
    rw [hin2] at hk2
    exact absurd hk2 (by simp)
  | some i4 =>
  rw [hin2] at hk2
  simp only [Option.map_some', Option.some.injEq] at hk2
  rw [List.drop_drop, matchREs_star_eq] at hin2
  obtain ⟨j3, i5, -, hk3, hn3⟩ := tryFrom_some hin2
  rw [List.drop_drop] at hk3
  set m := j1 + openTok.length + j2 + closeTok.length + j3 with hmdef
  have hk3' : matchREs [RE.lineEnd, RE.optNL] (cs.drop m) = some i5 := hk3
  have hncalc : n = m + i5 := by
    have hol : openTok.length = 3 := rfl
    have hcl : closeTok.length = 3 := rfl
    omega
  cases hdm : cs.drop m with
  | nil =>
    rw [hdm, matchREs_lineEnd_optNL_nil] at hk3'
    injection hk3' with hi5
    left
    rw [hncalc, ← hi5]
    exact hdm
  | cons c r =>
    rw [hdm] at hk3'
    by_cases hlt : isLineTerm c = true
    · by_cases hc : c = '\n'
      · subst hc
        rw [matchREs_lineEnd_optNL_newline] at hk3'
        injection hk3' with hi5
        right
        left
        rw [hncalc, ← hi5]
        rw [List.take_succ]
        have hget : cs[m]? = some '\n' := by
          rw [← List.head?_drop, hdm]
          rfl
        rw [hget]
        exact List.getLast?_concat _
      · rw [matchREs_lineEnd_optNL_term _ hlt hc] at hk3'
        injection hk3' with hi5
        right
        right
        refine ⟨c, r, ?_, hlt⟩
        rw [hncalc, ← hi5]
        exact hdm
    · rw [matchREs_lineEnd_cons_ne (by simpa using hlt)] at hk3'
      exact absurd hk3' (by simp)


/-! ### Scan-level lemmas: the anchored global replace and test -/

theorem goDel_nil (res : List RE) (b : Bool) : goDel res b [] = [] := by
  rw [goDel.eq_def]

theorem goDel_false_step (res : List RE) (c : Char) (rest : List Char) :
    goDel res false (c :: rest) = c :: goDel res (isLineTerm c) rest := by
  rw [goDel.eq_def]
  simp

theorem goDel_no_match_step {res : List RE} {c : Char} {rest : List Char}
    (h : matchREs res (c :: rest) = none) :
    goDel res true (c :: rest) = c :: goDel res (isLineTerm c) rest := by
  rw [goDel.eq_def]
  simp [h]

theorem goDel_match_step {res : List RE} {cs : List Char} {n : Nat}
    (h : matchREs res cs = some n) (hn : n ≠ 0) :
    goDel res true cs =
      goDel res (lastIsTerm (cs.take n)) (cs.drop n) := by
  cases cs with
  | nil =>
    rw [goDel.eq_def, goDel.eq_def, List.drop_nil]
  | cons c rest =>
    conv_lhs => rw [goDel.eq_def]
    simp only [if_true, h, reduceIte]
    rw [dif_neg hn]

theorem anchoredTest_nil (res : List RE) (b : Bool) :
    anchoredTest res b [] = (b && (matchREs res []).isSome) := rfl

theorem anchoredTest_of_isSome {res : List RE} {cs : List Char}
    (h : (matchREs res cs).isSome = true) : anchoredTest res true cs = true := by
  cases cs with
  | nil => simp [anchoredTest, h]
  | cons c rest => simp [anchoredTest, h]

theorem anchoredTest_false_of_no_match {res : List RE} {cs : List Char} {b : Bool}
    (H : ∀ i, matchREs res (cs.drop i) = none) : anchoredTest res b cs = false := by
  induction cs generalizing b with
  | nil =>
    have h0 := H 0
    simp at h0
    simp [anchoredTest, h0]
  | cons c rest ih =>
    have h0 := H 0
    simp only [List.drop_zero] at h0
    rw [anchoredTest]
    rw [if_neg (by simp [h0])]
    exact ih (fun i => H (i + 1))

theorem goDel_copy_false {res : List RE} {l : List Char} {t : Char} (X : List Char)
    (hnl : ∀ c ∈ l, isLineTerm c = false) (ht : isLineTerm t = true) :
    goDel res false (l ++ t :: X) = l ++ t :: goDel res true X := by
  induction l with
  | nil =>
    rw [List.nil_append, goDel_false_step, ht]
    rfl
  | cons c l' ih =>
    have hc : isLineTerm c = false := hnl c (List.mem_cons_self c l')
    rw [List.cons_append, goDel_false_step, hc,
      ih (fun d hd => hnl d (List.mem_cons_of_mem c hd))]
    rfl

theorem goDel_copy_false_end {res : List RE} {l : List Char}
    (hnl : ∀ c ∈ l, isLineTerm c = false) :
    goDel res false l = l := by
  induction l with
  | nil => exact goDel_nil res false
  | cons c l' ih =>
    have hc : isLineTerm c = false := hnl c (List.mem_cons_self c l')
    rw [goDel_false_step, hc, ih (fun d hd => hnl d (List.mem_cons_of_mem c hd))]

theorem goDel_no_match_line {res : List RE} {l : List Char} {t : Char} (X : List Char)
    (hnl : ∀ c ∈ l, isLineTerm c = false) (ht : isLineTerm t = true)
    (hm : matchREs res (l ++ t :: X) = none) :
    goDel res true (l ++ t :: X) = l ++ t :: goDel res true X := by
  cases l with
  | nil =>
    rw [List.nil_append] at hm ⊢
    rw [goDel_no_match_step hm, ht]
    rfl
  | cons c l' =>
    have hc : isLineTerm c = false := hnl c (List.mem_cons_self c l')
    rw [List.cons_append] at hm ⊢
    rw [goDel_no_match_step hm, hc,
      goDel_copy_false X (fun d hd => hnl d (List.mem_cons_of_mem c hd)) ht]
    rfl

theorem goDel_no_match_end {res : List RE} {l : List Char}
    (hnl : ∀ c ∈ l, isLineTerm c = false) (hm : matchREs res l = none) :
    goDel res true l = l := by
  cases l with
  | nil => exact goDel_nil res true
  | cons c l' =>
    have hc : isLineTerm c = false := hnl c (List.mem_cons_self c l')
    rw [goDel_no_match_step hm, hc,
      goDel_copy_false_end (fun d hd => hnl d (List.mem_cons_of_mem c hd))]

theorem goDel_id_of_no_match {res : List RE} {cs : List Char} {b : Bool}
    (H : ∀ i, matchREs res (cs.drop i) = none) : goDel res b cs = cs := by
  induction cs generalizing b with
  | nil => exact goDel_nil res b
  | cons c rest ih =>
    have h0 := H 0
    simp only [List.drop_zero] at h0
    cases b with
    | false => rw [goDel_false_step, ih (fun i => H (i + 1))]
    | true => rw [goDel_no_match_step h0, ih (fun i => H (i + 1))]

theorem splitLines_ne_nil (cs : List Char) : splitLines cs ≠ [] := by
  induction cs with
  | nil => simp [splitLines]
  | cons c rest ih =>
    rw [splitLines.eq_def]
    split
    · simp
    · simp
    · split
      · simp
      · simp

theorem splitLines_no_newline {l : List Char} (h : '\n' ∉ l) : splitLines l = [l] := by
  induction l with
  | nil => rfl
  | cons c rest ih =>
    have hc : c ≠ '\n' := fun e => h (e ▸ List.mem_cons_self c rest)
    have hr : '\n' ∉ rest := fun e => h (List.mem_cons_of_mem c e)
    rw [splitLines.eq_def]
    split
    · rename_i heq
      exact absurd heq (by simp)
    · rename_i rest' heq
      injection heq with h1 h2
      exact absurd h1 hc
    · rename_i c' rest' hne heq
      injection heq with h1 h2
      subst h1
      subst h2
      rw [ih hr]

theorem splitLines_append_newline {l : List Char} (X : List Char) (h : '\n' ∉ l) :
    splitLines (l ++ '\n' :: X) = l :: splitLines X := by
  induction l with
  | nil => rfl
  | cons c rest ih =>
    have hc : c ≠ '\n' := fun e => h (e ▸ List.mem_cons_self c rest)
    have hr : '\n' ∉ rest := fun e => h (List.mem_cons_of_mem c e)
    rw [List.cons_append, splitLines.eq_def]
    split
    · rename_i heq
      exact absurd heq (by simp)
    · rename_i rest' heq
      injection heq with h1 h2
      exact absurd h1 hc
    · rename_i c' rest' hne heq
      injection heq with h1 h2
      subst h1
      rw [← h2, ih hr]

theorem containsSub_iff {pat cs : List Char} :
    containsSub pat cs = true ↔ ∃ i, pat.isPrefixOf (cs.drop i) = true := by
  induction cs with
  | nil =>
    simp only [containsSub, List.tails, List.any_cons, List.any_nil, Bool.or_false]
    constructor
    · intro h
      exact ⟨0, h⟩
    · rintro ⟨i, hi⟩
      rwa [List.drop_nil] at hi
  | cons c rest ih =>
    simp only [containsSub] at ih ⊢
    rw [List.tails_cons, List.any_cons]
    simp only [Bool.or_eq_true, ih]
    constructor
    · rintro (h | ⟨i, hi⟩)
      · exact ⟨0, h⟩
      · exact ⟨i + 1, hi⟩
    · rintro ⟨i, hi⟩
      cases i with
      | zero => exact Or.inl hi
      | succ i' => exact Or.inr ⟨i', hi⟩

theorem hasAnyToken_iff {cs : List Char} :
    hasAnyToken cs = true ↔
      ∃ i, openTok.isPrefixOf (cs.drop i) = true ∧
        containsSub closeTok ((cs.drop i).drop 3) = true := by
  induction cs with
  | nil =>
    simp only [hasAnyToken, List.tails, List.any_cons, List.any_nil, Bool.or_false]
    constructor
    · intro h
      simp only [Bool.and_eq_true] at h
      exact ⟨0, h⟩
    · rintro ⟨i, h1, h2⟩
      rw [List.drop_nil] at h1
      exact absurd h1 (by decide)
  | cons c rest ih =>
    simp only [hasAnyToken] at ih ⊢
    rw [List.tails_cons, List.any_cons]
    simp only [Bool.or_eq_true, Bool.and_eq_true, ih]
    constructor
    · rintro (⟨h1, h2⟩ | ⟨i, h1, h2⟩)
      · exact ⟨0, h1, h2⟩
      · exact ⟨i + 1, h1, h2⟩
    · rintro ⟨i, h1, h2⟩
      cases i with
      | zero => exact Or.inl ⟨h1, h2⟩
      | succ i' => exact Or.inr ⟨i', h1, h2⟩

theorem matchREs_star_lit_occ {p : Char → Bool} {t : List Char} {rs : List RE}
    {cs : List Char} {n : Nat}
    (h : matchREs (RE.star p :: RE.lit t :: rs) cs = some n) :
    ∃ j, t.isPrefixOf (cs.drop j) = true := by
  rw [matchREs_star_eq] at h
  obtain ⟨j, i, -, hki, -⟩ := tryFrom_some h
  rw [matchREs_lit_eq] at hki
  by_cases hp : t.isPrefixOf (cs.drop j) = true
  · exact ⟨j, hp⟩
  · rw [if_neg (by simpa using hp)] at hki
    exact absurd hki (by simp)

theorem tokOf_prefix_token {name t : List Char}
    (h : (tokOf name).isPrefixOf t = true) :
    openTok.isPrefixOf t = true ∧ containsSub closeTok (t.drop 3) = true := by
  obtain ⟨r, hr⟩ := exists_of_isPrefixOf h
  rw [toK_assoc] at hr
  subst hr
  refine ⟨isPrefixOf_append_self _ _, ?_⟩
  rw [show (3 : Nat) = openTok.length from rfl, List.append_assoc, List.drop_left]
  rw [containsSub_iff]
  refine ⟨name.length, ?_⟩
  rw [List.append_assoc, List.drop_left]
  exact isPrefixOf_append_self _ _

theorem hasAnyToken_of_tok_occ {name cs : List Char} {i : Nat}
    (h : (tokOf name).isPrefixOf (cs.drop i) = true) : hasAnyToken cs = true := by
  obtain ⟨h1, h2⟩ := tokOf_prefix_token h
  exact hasAnyToken_iff.mpr ⟨i, h1, h2⟩

theorem no_tok_occ {name cs : List Char} (h : hasAnyToken cs = false) :
    ∀ i, (tokOf name).isPrefixOf (cs.drop i) = false := by
  intro i
  by_contra hp
  rw [Bool.not_eq_false] at hp
  rw [hasAnyToken_of_tok_occ hp] at h
  exact absurd h (by simp)

theorem no_lineRE_match_of_no_occ {name cs : List Char}
    (h : ∀ i, (tokOf name).isPrefixOf (cs.drop i) = false) :
    ∀ i, matchREs (lineREFor name) (cs.drop i) = none := by
  intro i
  cases hm : matchREs (lineREFor name) (cs.drop i) with
  | none => rfl
  | some n =>
    obtain ⟨j, hj⟩ := matchREs_star_lit_occ hm
    rw [List.drop_drop] at hj
    rw [h (i + j)] at hj
    exact absurd hj (by simp)

theorem cleanup_match_occ {cs : List Char} {n : Nat}
    (h : matchREs cleanupRE cs = some n) :
    ∃ j, openTok.isPrefixOf (cs.drop j) = true ∧
      containsSub closeTok ((cs.drop j).drop 3) = true := by
  rw [show cleanupRE = RE.star isWS :: [RE.lit openTok, RE.star isDot, RE.lit closeTok,
    RE.star isWS, RE.lineEnd, RE.optNL] from rfl, matchREs_star_eq] at h
  obtain ⟨j1, i1, -, hk1, -⟩ := tryFrom_some h
  rw [matchREs_lit_eq] at hk1
  by_cases hp1 : openTok.isPrefixOf (cs.drop j1) = true
  swap
  · rw [if_neg (by simpa using hp1)] at hk1
    exact absurd hk1 (by simp)
  rw [if_pos hp1] at hk1
  refine ⟨j1, hp1, ?_⟩
  cases hin1 : matchREs [RE.star isDot, RE.lit closeTok, RE.star isWS, RE.lineEnd, RE.optNL]
      ((cs.drop j1).drop openTok.length) with
  | none => rw [hin1] at hk1; exact absurd hk1 (by simp)
  | some i2 =>
    obtain ⟨j2, hj2⟩ := matchREs_star_lit_occ hin1
    rw [containsSub_iff]
    exact ⟨j2, hj2⟩

theorem no_cleanup_match {cs : List Char} (h : hasAnyToken cs = false) :
    ∀ i, matchREs cleanupRE (cs.drop i) = none := by
  intro i
  cases hm : matchREs cleanupRE (cs.drop i) with
  | none => rfl
  | some n =>
    obtain ⟨j, h1, h2⟩ := cleanup_match_occ hm
    rw [List.drop_drop] at h1
    rw [List.drop_drop, List.drop_drop] at h2
    have h2' : containsSub closeTok ((cs.drop (i + j)).drop 3) = true := by
      rw [List.drop_drop, show i + j + 3 = i + (j + 3) from by omega]
      exact h2
    rw [hasAnyToken_iff.mpr ⟨i + j, h1, h2'⟩] at h
    exact absurd h (by simp)

theorem replaceAll_nil (pat rep : List Char) : replaceAll pat rep [] = [] := by
  rw [replaceAll.eq_def]

theorem replaceAll_pos_step {pat : List Char} (rep : List Char) {c : Char} {rest : List Char}
    (hne : pat ≠ []) (hp : pat.isPrefixOf (c :: rest) = true) :
    replaceAll pat rep (c :: rest) =
      rep ++ replaceAll pat rep ((c :: rest).drop pat.length) := by
  rw [replaceAll.eq_def]
  exact if_pos ⟨hne, hp⟩

theorem replaceAll_neg_step {pat : List Char} (rep : List Char) {c : Char} {rest : List Char}
    (hp : pat.isPrefixOf (c :: rest) = false) :
    replaceAll pat rep (c :: rest) = c :: replaceAll pat rep rest := by
  rw [replaceAll.eq_def]
  exact if_neg (fun hcon => by rw [hp] at hcon; exact absurd hcon.2 (by simp))

theorem replaceAll_id_of_no_occ {pat : List Char} (rep : List Char) {cs : List Char}
    (H : ∀ i, pat.isPrefixOf (cs.drop i) = false) : replaceAll pat rep cs = cs := by
  induction cs with
  | nil => exact replaceAll_nil pat rep
  | cons c rest ih =>
    have h0 := H 0
    rw [List.drop_zero] at h0
    rw [replaceAll_neg_step rep h0, ih (fun i => H (i + 1))]

theorem replaceAll_single {pat : List Char} (rep : List Char) {pre post : List Char}
    (hne : pat ≠ [])
    (Hpre : ∀ i, i < pre.length → pat.isPrefixOf ((pre ++ (pat ++ post)).drop i) = false)
    (Hpost : ∀ j, pat.isPrefixOf (post.drop j) = false) :
    replaceAll pat rep (pre ++ (pat ++ post)) = pre ++ (rep ++ post) := by
  induction pre with
  | nil =>
    rw [List.nil_append, List.nil_append]
    cases hp : pat with
    | nil => exact absurd hp hne
    | cons p0 pat' =>
      rw [← hp]
      have hcons : pat ++ post = p0 :: (pat' ++ post) := by rw [hp]; rfl
      rw [hcons, replaceAll_pos_step rep hne (by rw [← hcons]; exact isPrefixOf_append_self _ _),
        ← hcons, List.drop_left, replaceAll_id_of_no_occ rep Hpost]
  | cons c pre' ih =>
    have h0 : pat.isPrefixOf (c :: (pre' ++ (pat ++ post))) = false := by
      have := Hpre 0 (by simp)
      rwa [List.drop_zero, List.cons_append] at this
    rw [List.cons_append, replaceAll_neg_step rep h0,
      ih (fun i hi => by
        have := Hpre (i + 1) (by simpa using Nat.succ_lt_succ hi)
        rwa [List.cons_append] at this)]
    rfl

theorem no_prefix_at_of_ws {pre X : List Char} {i : Nat} {tl : List Char}
    (hws : pre.all isWS = true) (hi : i < pre.length) :
    ('{' :: tl).isPrefixOf ((pre ++ X).drop i) = false := by
  have hhead : ((pre ++ X).drop i).head? = pre[i]? := head?_drop_append hi
  cases hd : (pre ++ X).drop i with
  | nil =>
    rfl
  | cons d t =>
    rw [hd] at hhead
    simp only [List.head?_cons] at hhead
    cases hgx : pre[i]? with
    | none => rw [hgx] at hhead; exact absurd hhead (by simp)
    | some w =>
      rw [hgx] at hhead
      injection hhead with hdw
      have hw : isWS w = true := List.all_eq_true.mp hws w (List.getElem?_mem hgx)
      have hne : '{' ≠ d := by
        intro hcon
        rw [hdw] at hcon
        rw [← hcon] at hw
        exact absurd hw (by decide)
      exact isPrefixOf_false_of_head_ne hne

theorem tok_no_occ_ws_nl {name tws S : List Char}
    (htws : tws.all isWS = true) (hSt : hasAnyToken S = false) :
    ∀ j, (tokOf name).isPrefixOf ((tws ++ ('\n' :: S)).drop j) = false := by
  intro j
  rcases Nat.lt_or_ge j tws.length with hlt | hge
  · rw [tokOf_cons]
    exact no_prefix_at_of_ws htws hlt
  · rcases Nat.lt_or_ge j (tws.length + 1) with hlt2 | hge2
    · have hj : j = tws.length := by omega
      subst hj
      rw [List.drop_left]
      rw [tokOf_cons]
      exact isPrefixOf_false_of_head_ne (by decide)
    · obtain ⟨d, rfl⟩ : ∃ d, j = tws.length + (d + 1) := ⟨j - tws.length - 1, by omega⟩
      rw [List.drop_append]
      rw [List.drop_succ_cons]
      exact no_tok_occ hSt d

theorem applyOne_id_of_no_occ {content : List Char} {kv : List Char × Value}
    (H : ∀ i, (tokOf kv.1).isPrefixOf (content.drop i) = false) :
    applyOne content kv = content := by
  unfold applyOne
  rw [if_neg (fun hcon => by
    have hat := anchoredTest_false_of_no_match (b := true)
      (no_lineRE_match_of_no_occ H)
    rw [hat] at hcon
    exact absurd hcon.2 (by simp))]
  exact replaceAll_id_of_no_occ _ H

theorem foldl_applyOne_id {content : List Char} {replacements : List (List Char × Value)}
    (H : ∀ kv ∈ replacements, ∀ i, (tokOf kv.1).isPrefixOf (content.drop i) = false) :
    replacements.foldl applyOne content = content := by
  induction replacements with
  | nil => rfl
  | cons kv rest ih =>
    rw [List.foldl_cons, applyOne_id_of_no_occ (H kv (List.mem_cons_self kv rest)),
      ih (fun kv' hkv' => H kv' (List.mem_cons_of_mem kv hkv'))]

theorem render_id_of_no_token {content : List Char} {replacements : List (List Char × Value)}
    (h : hasAnyToken content = false) : render content replacements = content := by
  unfold render
  rw [foldl_applyOne_id (fun kv _ => no_tok_occ h)]
  exact goDel_id_of_no_match (no_cleanup_match h)

theorem hasAnyToken_append_false {P S : List Char}
    (hP : '{' ∉ P) (hS : hasAnyToken S = false) :
    hasAnyToken (P ++ S) = false := by
  by_contra hcon
  rw [Bool.not_eq_false] at hcon
  obtain ⟨i, h1, h2⟩ := hasAnyToken_iff.mp hcon
  rcases Nat.lt_or_ge i P.length with hlt | hge
  · obtain ⟨r, hr⟩ := exists_of_isPrefixOf h1
    have hhead : ((P ++ S).drop i).head? = P[i]? := head?_drop_append hlt
    rw [hr] at hhead
    rw [show (openTok ++ r).head? = some '{' from rfl] at hhead
    exact hP (List.getElem?_mem hhead.symm)
  · obtain ⟨d, rfl⟩ : ∃ d, i = P.length + d := ⟨i - P.length, by omega⟩
    rw [List.drop_append] at h1 h2
    rw [hasAnyToken_iff.mpr ⟨d, h1, h2⟩] at hS
    exact absurd hS (by simp)

theorem render_bool_line (v : Bool) (name lws tws S : List Char)
    (hlws : lws.all isWS = true) (htws : tws.all isWS = true)
    (hSt : hasAnyToken S = false) :
    render (lws ++ (tokOf name ++ (tws ++ ('\n' :: S)))) [(name, Value.bool v)]
      = lws ++ ((Value.bool v).toChars ++ (tws ++ ('\n' :: S))) := by
  unfold render
  rw [List.foldl_cons, List.foldl_nil]
  unfold applyOne
  rw [if_neg (fun hcon => by simpa using hcon.1)]
  have hsub : replaceAll (tokOf name) (Value.bool v).toChars
      (lws ++ (tokOf name ++ (tws ++ ('\n' :: S))))
      = lws ++ ((Value.bool v).toChars ++ (tws ++ ('\n' :: S))) := by
    exact replaceAll_single _ (by rw [tokOf_cons]; simp)
      (fun i hi => by rw [tokOf_cons]; exact no_prefix_at_of_ws hlws hi)
      (tok_no_occ_ws_nl htws hSt)
  rw [hsub]
  have hnotok : hasAnyToken (lws ++ ((Value.bool v).toChars ++ (tws ++ ('\n' :: S))))
      = false := by
    rw [show lws ++ ((Value.bool v).toChars ++ (tws ++ ('\n' :: S)))
      = (lws ++ ((Value.bool v).toChars ++ (tws ++ ['\n']))) ++ S from by
        simp [List.append_assoc]]
    apply hasAnyToken_append_false _ hSt
    intro hmem
    simp only [List.mem_append, List.mem_cons] at hmem
    rcases hmem with h | h | h | h
    · have := List.all_eq_true.mp hlws _ h
      exact absurd this (by decide)
    · cases v <;> revert h <;> decide
    · have := List.all_eq_true.mp htws _ h
      exact absurd this (by decide)
    · revert h
      decide
  exact goDel_id_of_no_match (no_cleanup_match hnotok)

theorem render_empty_line_del (name lws tws S : List Char)
    (hlws : lws.all isWS = true) (htws : tws.all isWS = true)
    (hS1 : ∀ c ∈ S.takeWhile isWS, isLineTerm c = false)
    (hS2 : S.takeWhile isWS = S → S = [])
    (hSt : hasAnyToken S = false) :
    render (lws ++ (tokOf name ++ (tws ++ ('\n' :: S)))) [(name, Value.str [])] = S := by
  have hmatch := @matchREs_lineRE_value name lws tws S hlws htws hS1 hS2
  unfold render
  rw [List.foldl_cons, List.foldl_nil]
  unfold applyOne
  rw [if_pos ⟨rfl, anchoredTest_of_isSome (by rw [hmatch]; rfl)⟩]
  have hL : lws ++ (tokOf name ++ (tws ++ ('\n' :: S)))
      = (lws ++ (tokOf name ++ (tws ++ ['\n']))) ++ S := by
    simp [List.append_assoc]
  have hn : lws.length + ((tokOf name).length + (tws.length + 1))
      = (lws ++ (tokOf name ++ (tws ++ ['\n']))).length := by
    simp only [List.length_append, List.length_cons, List.length_nil]
  have hstep := goDel_match_step hmatch (by omega)
  rw [hstep]
  have htake : ((lws ++ (tokOf name ++ (tws ++ ('\n' :: S)))).take
      (lws.length + ((tokOf name).length + (tws.length + 1))))
      = lws ++ (tokOf name ++ (tws ++ ['\n'])) := by
    rw [hn]
    conv_lhs => rw [hL]
    rw [take_append_le (Nat.le_refl _), List.take_length]
  have hdrop : ((lws ++ (tokOf name ++ (tws ++ ('\n' :: S)))).drop
      (lws.length + ((tokOf name).length + (tws.length + 1)))) = S := by
    rw [hn]
    conv_lhs => rw [hL]
    rw [drop_append_le (Nat.le_refl _), List.drop_length, List.nil_append]
  have hlast : (lws ++ (tokOf name ++ (tws ++ ['\n']))).getLast? = some '\n' := by
    rw [show lws ++ (tokOf name ++ (tws ++ ['\n']))
      = (lws ++ (tokOf name ++ tws)) ++ ['\n'] from by simp [List.append_assoc]]
    exact List.getLast?_concat _
  have hb : lastIsTerm (lws ++ (tokOf name ++ (tws ++ ['\n']))) = true := by
    unfold lastIsTerm
    rw [hlast]
    decide
  rw [htake, hdrop, hb]
  rw [goDel_id_of_no_match (no_lineRE_match_of_no_occ (no_tok_occ hSt))]
  exact goDel_id_of_no_match (no_cleanup_match hSt)

theorem no_occ_of_containsSub_false {pat l : List Char}
    (h : containsSub pat l = false) : ∀ i, pat.isPrefixOf (l.drop i) = false := by
  intro i
  by_contra hp
  rw [Bool.not_eq_false] at hp
  rw [containsSub_iff.mpr ⟨i, hp⟩] at h
  exact absurd h (by simp)

theorem render_inline_survives {name l : List Char} {replacements : List (List Char × Value)}
    (hterm : ∀ c ∈ l, isLineTerm c = false) (hnotline : isCleanupLine l = false)
    (hocc : containsSub (tokOf name) l = true)
    (hothers : ∀ kv ∈ replacements, containsSub (tokOf kv.1) l = false) :
    render l replacements = l := by
  unfold render
  rw [foldl_applyOne_id (fun kv hkv => no_occ_of_containsSub_false (hothers kv hkv))]
  have hnw : l.all isWS = false := by
    obtain ⟨i, hp⟩ := containsSub_iff.mp hocc
    obtain ⟨r, hr⟩ := exists_of_isPrefixOf hp
    have hbrace : '{' ∈ l := by
      apply List.mem_of_mem_drop (n := i)
      rw [hr, tokOf_cons]
      exact List.mem_cons_self _ _
    by_contra hcon
    rw [Bool.not_eq_false] at hcon
    have := List.all_eq_true.mp hcon _ hbrace
    exact absurd this (by decide)
  have hm : matchREs cleanupRE l = none := by
    cases hmm : matchREs cleanupRE l with
    | none => rfl
    | some n =>
      have hsome : (matchREs cleanupRE (l ++ [])).isSome = true := by
        rw [List.append_nil, hmm]
        rfl
      have := isCleanupLine_of_cleanup_match hterm hnw (Or.inl rfl) hsome
      rw [this] at hnotline
      exact absurd hnotline (by simp)
  exact goDel_no_match_end hterm hm

/-! ### Terminator-delimited lines

The cleanup scan treats every position after any of the four line
terminators as a line start, while the claims talk about `'\n'`-delimited
lines.  `splitTerm` splits on all terminators; it refines `splitLines`. -/

/-- Split on any line terminator (never empty). -/
def splitTerm (cs : List Char) : List (List Char) :=
  match cs with
  | [] => [[]]
  | c :: rest =>
    if isLineTerm c then [] :: splitTerm rest
    else
      match splitTerm rest with
      | l :: ls => (c :: l) :: ls
      | [] => [[c]]

theorem splitTerm_nil : splitTerm [] = [[]] := rfl

theorem splitTerm_cons_term {c : Char} (rest : List Char) (hc : isLineTerm c = true) :
    splitTerm (c :: rest) = [] :: splitTerm rest := by
  conv_lhs => unfold splitTerm
  rw [if_pos hc]

theorem splitTerm_cons_of_not_term {c : Char} {rest l : List Char}
    {ls : List (List Char)} (hc : isLineTerm c = false) (h : splitTerm rest = l :: ls) :
    splitTerm (c :: rest) = (c :: l) :: ls := by
  conv_lhs => unfold splitTerm
  rw [if_neg (by simp [hc]), h]

theorem splitTerm_ne_nil (cs : List Char) : splitTerm cs ≠ [] := by
  induction cs with
  | nil => simp [splitTerm]
  | cons c rest ih =>
    by_cases hc : isLineTerm c = true
    · rw [splitTerm_cons_term _ hc]
      simp
    · cases h : splitTerm rest with
      | nil => exact absurd h ih
      | cons l ls =>
        rw [splitTerm_cons_of_not_term (by simpa using hc) h]
        simp

theorem splitTerm_no_term {l : List Char} (h : ∀ c ∈ l, isLineTerm c = false) :
    splitTerm l = [l] := by
  induction l with
  | nil => rfl
  | cons c rest ih =>
    rw [splitTerm_cons_of_not_term (h c (List.mem_cons_self c rest))
      (ih (fun d hd => h d (List.mem_cons_of_mem c hd)))]

theorem splitTerm_append_term {A : List Char} {t : Char} (B : List Char)
    (ht : isLineTerm t = true) :
    splitTerm (A ++ t :: B) = splitTerm A ++ splitTerm B := by
  induction A with
  | nil =>
    rw [List.nil_append, splitTerm_cons_term _ ht, splitTerm_nil]
    rfl
  | cons c A2 ih =>
    rw [List.cons_append]
    by_cases hc : isLineTerm c = true
    · rw [splitTerm_cons_term _ hc, ih, splitTerm_cons_term _ hc]
      rfl
    · have hc2 : isLineTerm c = false := by simpa using hc
      cases h2 : splitTerm A2 with
      | nil => exact absurd h2 (splitTerm_ne_nil A2)
      | cons l0 ls0 =>
        have hrec : splitTerm (A2 ++ t :: B) = l0 :: (ls0 ++ splitTerm B) := by
          rw [ih, h2]
          rfl
        rw [splitTerm_cons_of_not_term hc2 hrec, splitTerm_cons_of_not_term hc2 h2]
        rfl

/-- A terminator-free segment placed between a terminator (or the start)
and a terminator (or the end) is one of the terminator-lines. -/
theorem mem_splitTerm_of_shape {P tl Q : List Char}
    (hP : P = [] ∨ ∃ P2 t, P = P2 ++ [t] ∧ isLineTerm t = true)
    (htl : ∀ c ∈ tl, isLineTerm c = false)
    (hQ : Q = [] ∨ ∃ t Q2, Q = t :: Q2 ∧ isLineTerm t = true) :
    tl ∈ splitTerm (P ++ (tl ++ Q)) := by
  have hbase : tl ∈ splitTerm (tl ++ Q) := by
    rcases hQ with rfl | ⟨t, Q2, rfl, ht⟩
    · rw [List.append_nil, splitTerm_no_term htl]
      exact List.mem_singleton_self _
    · rw [splitTerm_append_term _ ht, splitTerm_no_term htl]
      exact List.mem_append_left _ (List.mem_singleton_self _)
  rcases hP with rfl | ⟨P2, t, rfl, ht⟩
  · rwa [List.nil_append]
  · rw [List.append_assoc, show [t] ++ (tl ++ Q) = t :: (tl ++ Q) from rfl,
      splitTerm_append_term _ ht]
    exact List.mem_append_right _ hbase

theorem splitLines_cons_of_ne {c : Char} {rest l0 : List Char} {ls0 : List (List Char)}
    (hc : c ≠ '\n') (h : splitLines rest = l0 :: ls0) :
    splitLines (c :: rest) = (c :: l0) :: ls0 := by
  rw [splitLines.eq_def]
  split
  · rename_i heq
    exact absurd heq (by simp)
  · rename_i rest2 heq
    injection heq with h1 h2
    exact absurd h1 hc
  · rename_i c2 rest2 hne heq
    injection heq with h1 h2
    subst h1
    subst h2
    rw [h]

/-- The terminator-lines are exactly the terminator-lines of each
`'\n'`-line: `splitLines` splits on a subset of the terminators. -/
theorem splitTerm_flatten :
    ∀ cs : List Char, splitTerm cs = ((splitLines cs).map splitTerm).flatten := by
  intro cs
  induction cs with
  | nil => rfl
  | cons c rest ih =>
    by_cases hc : c = '\n'
    · subst hc
      rw [show splitLines ('\n' :: rest) = [] :: splitLines rest from rfl]
      rw [splitTerm_cons_term _ (by decide), List.map_cons, List.flatten_cons, ih]
      rfl
    · cases hsl : splitLines rest with
      | nil => exact absurd hsl (splitLines_ne_nil rest)
      | cons l0 ls0 =>
        by_cases hterm : isLineTerm c = true
        · have ihx : splitTerm rest = splitTerm l0 ++ (ls0.map splitTerm).flatten := by
            rw [ih, hsl, List.map_cons, List.flatten_cons]
          rw [splitLines_cons_of_ne hc hsl, List.map_cons, List.flatten_cons,
            splitTerm_cons_term _ hterm, splitTerm_cons_term _ hterm, ihx]
          rfl
        · have hterm2 : isLineTerm c = false := by simpa using hterm
          cases hst : splitTerm l0 with
          | nil => exact absurd hst (splitTerm_ne_nil l0)
          | cons s0 ss0 =>
            have ihx : splitTerm rest = s0 :: (ss0 ++ (ls0.map splitTerm).flatten) := by
              rw [ih, hsl, List.map_cons, List.flatten_cons, hst]
              rfl
            rw [splitLines_cons_of_ne hc hsl, List.map_cons, List.flatten_cons,
              splitTerm_cons_of_not_term hterm2 ihx,
              splitTerm_cons_of_not_term hterm2 hst]
            rfl

/-- Inside any line of the `isCleanupLine` shape sits a terminator-free
terminator-line of the same shape (the terminators can only hide in the
surrounding whitespace). -/
theorem exists_cleanup_tline_aux {W mid w3 : List Char}
    (hWws : W.all isWS = true) (hdots : mid.all isDot = true)
    (hw3 : w3.all isWS = true) :
    ∃ tl ∈ splitTerm (W ++ (tokOf mid ++ w3)), isCleanupLine tl = true := by
  obtain ⟨P, A2, hPA, hPsh, hA2p⟩ : ∃ P A2, W = P ++ A2 ∧
      (P = [] ∨ ∃ P2 t, P = P2 ++ [t] ∧ isLineTerm t = true) ∧
      ∀ c ∈ A2, isLineTerm c = false := by
    refine ⟨(W.reverse.dropWhile (fun c => !(isLineTerm c))).reverse,
      (W.reverse.takeWhile (fun c => !(isLineTerm c))).reverse,
      rev_strip_decomp _ W, ?_, ?_⟩
    · cases hd : W.reverse.dropWhile (fun c => !(isLineTerm c)) with
      | nil =>
        left
        rfl
      | cons d D =>
        right
        refine ⟨D.reverse, d, by rw [List.reverse_cons], ?_⟩
        have := dropWhile_head_not hd
        simpa using this
    · intro c hc
      rw [List.mem_reverse] at hc
      have := List.all_eq_true.mp (all_takeWhile _ _) c hc
      simpa using this
  obtain ⟨B1, Q, hBQ, hQsh, hB1p⟩ : ∃ B1 Q, w3 = B1 ++ Q ∧
      (Q = [] ∨ ∃ t Q2, Q = t :: Q2 ∧ isLineTerm t = true) ∧
      ∀ c ∈ B1, isLineTerm c = false := by
    refine ⟨w3.takeWhile (fun c => !(isLineTerm c)), w3.dropWhile (fun c => !(isLineTerm c)),
      (List.takeWhile_append_dropWhile _ _).symm, ?_, ?_⟩
    · cases hd : w3.dropWhile (fun c => !(isLineTerm c)) with
      | nil =>
        left
        rfl
      | cons d D =>
        right
        refine ⟨d, D, rfl, ?_⟩
        have := dropWhile_head_not hd
        simpa using this
    · intro c hc
      have := List.all_eq_true.mp (all_takeWhile _ _) c hc
      simpa using this
  refine ⟨A2 ++ (tokOf mid ++ B1), ?_, ?_⟩
  · have hre : W ++ (tokOf mid ++ w3)
        = P ++ ((A2 ++ (tokOf mid ++ B1)) ++ Q) := by
      rw [hPA, hBQ]
      simp [List.append_assoc]
    rw [hre]
    apply mem_splitTerm_of_shape hPsh ?_ hQsh
    intro c hc
    simp only [List.mem_append] at hc
    rcases hc with h | h | h
    · exact hA2p c h
    · rw [tokOf_cons] at h
      simp only [List.mem_cons, List.mem_append] at h
      rcases h with rfl | rfl | rfl | h | h
      · decide
      · decide
      · decide
      · exact not_isLineTerm_of_isDot (List.all_eq_true.mp hdots c h)
      · rw [show closeTok = [' ', '}', '}'] from rfl] at h
        simp only [List.mem_cons, List.not_mem_nil, or_false] at h
        rcases h with rfl | rfl | rfl <;> decide
    · exact hB1p c h
  · apply isCleanupLine_build ?_ ?_ hdots
    · apply List.all_eq_true.mpr
      intro c hc
      exact List.all_eq_true.mp hWws c (by rw [hPA]; exact List.mem_append_right P hc)
    · apply List.all_eq_true.mpr
      intro c hc
      exact List.all_eq_true.mp hw3 c (by rw [hBQ]; exact List.mem_append_left Q hc)

theorem cleanup_tline_of_isCleanupLine {l : List Char} (h : isCleanupLine l = true) :
    ∃ tl ∈ splitTerm l, isCleanupLine tl = true := by
  obtain ⟨mid, w3, hdecomp, hdots, hw3⟩ := isCleanupLine_exists h
  rw [hdecomp]
  exact exists_cleanup_tline_aux (all_takeWhile _ _) hdots hw3

/-- No terminator-line of the cleanup pass output is a line-level
placeholder: at every line start the regex is attempted, a match is
deleted ending at a line start (or at a terminator that is then copied),
and a surviving line-start line cannot be of the cleanup shape. -/
theorem goDel_cleanup_tlines :
    ∀ (N : Nat) (cs : List Char), cs.length ≤ N →
      ∀ tl ∈ splitTerm (goDel cleanupRE true cs), isCleanupLine tl = false := by
  intro N
  induction N with
  | zero =>
    intro cs hlen tl hl
    have hcs : cs = [] := List.eq_nil_of_length_eq_zero (Nat.le_zero.mp hlen)
    subst hcs
    rw [goDel_nil, splitTerm_nil, List.mem_singleton] at hl
    subst hl
    decide
  | succ N ih =>
    intro cs hlen tl hl
    cases hm : matchREs cleanupRE cs with
    | some n =>
      have hpos := cleanup_match_pos hm
      rw [goDel_match_step hm (by omega)] at hl
      have hlt : (cs.drop n).length ≤ N := by
        simp only [List.length_drop]
        omega
      rcases cleanup_match_end hm with hdrop | hlastnl | ⟨t, rest2, hdrop, ht⟩
      · rw [hdrop, goDel_nil, splitTerm_nil, List.mem_singleton] at hl
        subst hl
        decide
      · have hb : lastIsTerm (cs.take n) = true := by
          unfold lastIsTerm
          rw [hlastnl]
          decide
        rw [hb] at hl
        exact ih (cs.drop n) hlt tl hl
      · cases hb : lastIsTerm (cs.take n) with
        | true =>
          rw [hb] at hl
          exact ih (cs.drop n) hlt tl hl
        | false =>
          rw [hb, hdrop, goDel_false_step, ht, splitTerm_cons_term _ ht,
            List.mem_cons] at hl
          rcases hl with rfl | hl
          · decide
          · refine ih rest2 ?_ tl hl
            have hr2 : (cs.drop n).length = rest2.length + 1 := by
              rw [hdrop]
              rfl
            simp only [List.length_drop] at hr2
            omega
    | none =>
      have hdecomp := (List.takeWhile_append_dropWhile (fun c => !(isLineTerm c)) cs).symm
      have hLp : ∀ c ∈ cs.takeWhile (fun c => !(isLineTerm c)), isLineTerm c = false := by
        intro c hc
        have := List.all_eq_true.mp (all_takeWhile _ cs) c hc
        simpa using this
      cases hR : cs.dropWhile (fun c => !(isLineTerm c)) with
      | nil =>
        have hcs : cs = cs.takeWhile (fun c => !(isLineTerm c)) := by
          conv_lhs => rw [hdecomp]
          rw [hR, List.append_nil]
        have hterm : ∀ c ∈ cs, isLineTerm c = false := fun c hc => hLp c (hcs ▸ hc)
        rw [goDel_no_match_end hterm hm, splitTerm_no_term hterm,
          List.mem_singleton] at hl
        subst hl
        by_contra hcon
        rw [Bool.not_eq_false] at hcon
        have := cleanup_match_of_isCleanupLine hcon (Or.inl rfl)
        rw [List.append_nil, hm] at this
        exact absurd this (by simp)
      | cons t R2 =>
        have ht : isLineTerm t = true := by
          have := dropWhile_head_not hR
          simpa using this
        have hcs : cs = cs.takeWhile (fun c => !(isLineTerm c)) ++ t :: R2 := by
          conv_lhs => rw [hdecomp]
          rw [hR]
        rw [hcs] at hm hl
        rw [goDel_no_match_line R2 hLp ht hm, splitTerm_append_term _ ht,
          splitTerm_no_term hLp, List.mem_append, List.mem_singleton] at hl
        rcases hl with rfl | hl
        · by_contra hcon
          rw [Bool.not_eq_false] at hcon
          have hsm := @cleanup_match_of_isCleanupLine _ (t :: R2) hcon
            (Or.inr ⟨t, rfl, ht⟩)
          rw [hm] at hsm
          exact absurd hsm (by simp)
        · refine ih R2 ?_ tl hl
          have hlen2 := congrArg List.length hcs
          simp only [List.length_append, List.length_cons] at hlen2
          omega

/-! ### Claims C1, C7-C10 -/

/-- C1, as stated, is false: a boolean `false` value does not delete the
placeholder line.  `copyTemplate` takes the line-deletion branch only when
`value === ''`; for boolean `false` the strict equality fails and
`String(value)` is substituted inline, so the line survives as the literal
word `false`. -/
theorem claim_C1_counterexample :
    render "\x7b\x7b flag \x7d\x7d\n".data [("flag".data, Value.bool false)]
      = "false\n".data ∧ "false\n".data ≠ ([] : List Char) := by
  constructor
  · rw [show "\x7b\x7b flag \x7d\x7d\n".data
      = [] ++ (tokOf "flag".data ++ ([] ++ ('\n' :: []))) from by decide]
    rw [render_bool_line false "flag".data [] [] [] rfl rfl rfl]
    decide
  · decide

/-- C1 (amended): only an empty-string value deletes the line.  When the
value is the empty string and the token occupies a line by itself
(whitespace apart), the whole line including its trailing newline is
removed, leaving no residual blank line — the following content `S`
directly replaces the deleted line.  (The whitespace run opening `S` must
be free of line terminators, or the greedy trailing `\s*$` would extend
the match into `S`.) -/
theorem claim_C1_amended (name lws tws S : List Char)
    (hlws : lws.all isWS = true) (htws : tws.all isWS = true)
    (hS1 : ∀ c ∈ S.takeWhile isWS, isLineTerm c = false)
    (hS2 : S.takeWhile isWS = S → S = [])
    (hSt : hasAnyToken S = false) :
    render (lws ++ (tokOf name ++ (tws ++ ('\n' :: S)))) [(name, Value.str [])] = S :=
  render_empty_line_del name lws tws S hlws htws hS1 hS2 hSt

/-- C1 (amended) at a concrete one-line placeholder followed by a `next`
line. -/
theorem claim_C1_amended_witness :
    ([' '].all isWS = true) ∧
    (∀ c ∈ "next\n".data.takeWhile isWS, isLineTerm c = false) ∧
    ("next\n".data.takeWhile isWS = "next\n".data → "next\n".data = []) ∧
    (hasAnyToken "next\n".data = false) ∧
    render ([' '] ++ (tokOf "opt".data ++ ([' '] ++ ('\n' :: "next\n".data))))
      [("opt".data, Value.str [])] = "next\n".data := by
  refine ⟨by decide, by decide, by decide, by decide, ?_⟩
  exact claim_C1_amended "opt".data [' '] [' '] "next\n".data
    (by decide) (by decide) (by decide) (by decide) (by decide)

/-- C7: confirmed.  After the per-key substitutions, the final cleanup
pass deletes every remaining line-level placeholder, known name or not: no
line of the rendered output is a whitespace-delimited
`\x7b\x7b ... \x7d\x7d` token. -/
theorem claim_C7 (content : List Char) (replacements : List (List Char × Value)) :
    ∀ l ∈ splitLines (render content replacements), isCleanupLine l = false := by
  intro l hl
  by_contra hcon
  rw [Bool.not_eq_false] at hcon
  obtain ⟨tl, htl, htlc⟩ := cleanup_tline_of_isCleanupLine hcon
  have hmem : tl ∈ splitTerm (render content replacements) := by
    rw [splitTerm_flatten]
    exact List.mem_flatten.mpr ⟨splitTerm l, List.mem_map_of_mem _ hl, htl⟩
  unfold render at hmem
  have hfalse := goDel_cleanup_tlines (replacements.foldl applyOne content).length
    (replacements.foldl applyOne content) (Nat.le_refl _) tl hmem
  rw [htlc] at hfalse
  exact absurd hfalse (by simp)

/-- C7 at the empty template and empty context. -/
theorem claim_C7_witness :
    ([] : List Char) ∈ splitLines (render ([] : List Char) ([] : List (List Char × Value))) ∧
    isCleanupLine ([] : List Char) = false := by
  have hr : render ([] : List Char) ([] : List (List Char × Value)) = [] := by
    unfold render
    rw [List.foldl_nil, goDel_nil]
  have hmem : ([] : List Char) ∈ splitLines (render ([] : List Char)
      ([] : List (List Char × Value))) := by
    rw [hr]
    exact List.mem_singleton_self _
  exact ⟨hmem, claim_C7 [] [] [] hmem⟩

/-- C8, as stated, is false: a boolean `true` value is not rendered as an
empty token.  `String(true)` is substituted for the placeholder, so the
kept line reads the literal word `true`, not the empty string. -/
theorem claim_C8_counterexample :
    render "\x7b\x7b flag \x7d\x7d\n".data [("flag".data, Value.bool true)]
      = "true\n".data ∧ "true\n".data ≠ "\n".data := by
  constructor
  · rw [show "\x7b\x7b flag \x7d\x7d\n".data
      = [] ++ (tokOf "flag".data ++ ([] ++ ('\n' :: []))) from by decide]
    rw [render_bool_line true "flag".data [] [] [] rfl rfl rfl]
    decide
  · decide

/-- C8 (amended): a boolean `true` value substitutes the literal word
`true` for the token, keeping the rest of the line (and everything after
it) intact. -/
theorem claim_C8_amended (name lws tws S : List Char)
    (hlws : lws.all isWS = true) (htws : tws.all isWS = true)
    (hSt : hasAnyToken S = false) :
    render (lws ++ (tokOf name ++ (tws ++ ('\n' :: S)))) [(name, Value.bool true)]
      = lws ++ ("true".data ++ (tws ++ ('\n' :: S))) :=
  render_bool_line true name lws tws S hlws htws hSt

/-- C8 (amended) at a concrete placeholder line followed by a `rest`
line. -/
theorem claim_C8_amended_witness :
    (hasAnyToken "rest\n".data = false) ∧
    render ([' '] ++ (tokOf "flag".data ++ ([] ++ ('\n' :: "rest\n".data))))
      [("flag".data, Value.bool true)]
      = [' '] ++ ("true".data ++ ([] ++ ('\n' :: "rest\n".data))) := by
  exact ⟨by decide, claim_C8_amended "flag".data [' '] [] "rest\n".data
    (by decide) (by decide) (by decide)⟩

/-- C9: confirmed.  A template containing no placeholder syntax is
returned unchanged by `render`, byte for byte, for every context. -/
theorem claim_C9 (content : List Char) (replacements : List (List Char × Value))
    (h : hasAnyToken content = false) : render content replacements = content :=
  render_id_of_no_token h

/-- C9 at a concrete placeholder-free template. -/
theorem claim_C9_witness :
    hasAnyToken "hello world\n".data = false ∧
    render "hello world\n".data [("name".data, Value.str "x".data)]
      = "hello world\n".data :=
  ⟨by decide, claim_C9 _ _ (by decide)⟩

/-- C10, as stated, is false: a token embedded in other text on its line
does not always survive.  The cleanup regex lets `.*` span arbitrary
non-terminator text, so a line carrying two embedded tokens with the word
`and` between them still reads `\x7b\x7b ... \x7d\x7d` as a whole and is
deleted entirely: neither token occupies the line by itself, yet the
rendered output of `\x7b\x7b a \x7d\x7d and \x7b\x7b b \x7d\x7d\n` under
the empty context is empty. -/
theorem claim_C10_counterexample :
    isPlacLine "a".data "\x7b\x7b a \x7d\x7d and \x7b\x7b b \x7d\x7d".data = false ∧
    isPlacLine "b".data "\x7b\x7b a \x7d\x7d and \x7b\x7b b \x7d\x7d".data = false ∧
    containsSub (tokOf "a".data)
      "\x7b\x7b a \x7d\x7d and \x7b\x7b b \x7d\x7d\n".data = true ∧
    render "\x7b\x7b a \x7d\x7d and \x7b\x7b b \x7d\x7d\n".data [] = [] := by
  refine ⟨by decide, by decide, by decide, ?_⟩
  unfold render
  rw [List.foldl_nil]
  have hm : matchREs cleanupRE "\x7b\x7b a \x7d\x7d and \x7b\x7b b \x7d\x7d\n".data
      = some 20 := by decide
  rw [goDel_match_step hm (by decide),
    show ("\x7b\x7b a \x7d\x7d and \x7b\x7b b \x7d\x7d\n".data).drop 20 = [] from by decide]
  exact goDel_nil _ _

/-- C10 (amended): an unknown token embedded in other text survives
verbatim exactly when its line is not, as a whole, of the cleanup shape.
For a terminator-free line that is not recognised by the line-anchored
cleanup regex (stripped of surrounding whitespace it does not read
`\x7b\x7b ... \x7d\x7d`), rendering with a context that mentions none of
the line's tokens returns the line unchanged, token included. -/
theorem claim_C10_amended (name l : List Char) (replacements : List (List Char × Value))
    (hterm : ∀ c ∈ l, isLineTerm c = false) (hnotline : isCleanupLine l = false)
    (hocc : containsSub (tokOf name) l = true)
    (hothers : ∀ kv ∈ replacements, containsSub (tokOf kv.1) l = false) :
    render l replacements = l ∧
    containsSub (tokOf name) (render l replacements) = true := by
  have hr := render_inline_survives hterm hnotline hocc hothers
  exact ⟨hr, by rw [hr]; exact hocc⟩

/-- C10 (amended) at a concrete `app.use(\x7b\x7b foo \x7d\x7d)` line. -/
theorem claim_C10_amended_witness :
    (∀ c ∈ "app.use(\x7b\x7b foo \x7d\x7d)".data, isLineTerm c = false) ∧
    (isCleanupLine "app.use(\x7b\x7b foo \x7d\x7d)".data = false) ∧
    (containsSub (tokOf "foo".data) "app.use(\x7b\x7b foo \x7d\x7d)".data = true) ∧
    (render "app.use(\x7b\x7b foo \x7d\x7d)".data [("bar".data, Value.bool true)]
        = "app.use(\x7b\x7b foo \x7d\x7d)".data ∧
      containsSub (tokOf "foo".data)
        (render "app.use(\x7b\x7b foo \x7d\x7d)".data [("bar".data, Value.bool true)]) = true) := by
  refine ⟨by decide, by decide, by decide, ?_⟩
  exact claim_C10_amended "foo".data _ _ (by decide) (by decide) (by decide) (by decide)

end CVVA
